import Mathlib

/-!
# Todolistconsole.cpp : task records, the flat-file codec and the task store

A shallow embedding of `src/Todolistconsole.cpp`.

* A C++ `string` is a list of characters (`Str`); `push_back` appends at the end.
* A range-`for` loop is a left fold over the sequence it walks.
* An `int` is an `Int` in the range `INT_MIN .. INT_MAX`; the two increments
  of the program (`next_id++`, `t.id + 1`) wrap around modulo `2^32`.
* `std::stoi` and `operator<<(int)` are library functions, modelled by their
  documented behaviour (`stoi`, `int_to_string`).
* The globals `tasks`, `next_id` and the file `tasks.db` form the state `World`.
-/

namespace Todolist

/-- A C++ `std::string`, as the sequence of its characters. -/
abbrev Str := List Char

/-- The record `struct Task`. -/
structure Task where
  id : Int
  title : Str
  category : Str
  done : Bool
  created_at : Str
  deriving DecidableEq

/-- Largest value of a 32-bit `int`. -/
def INT_MAX : Int := 2147483647

/-- Smallest value of a 32-bit `int`. -/
def INT_MIN : Int := -2147483648

/-- Result of a 32-bit signed addition: the value modulo `2^32`, taken in `INT_MIN .. INT_MAX`. -/
def wrap_int (x : Int) : Int := (x + 2147483648) % 4294967296 - 2147483648

/-- The globals of the program and the backing file `tasks.db`
(`file = none`: the file cannot be opened for reading). -/
structure World where
  tasks : List Task
  next_id : Int
  file : Option Str
  deriving DecidableEq

/-- State at program start: `tasks` empty, `next_id = 1`, over a given backing file. -/
def World.init (file : Option Str) : World := ⟨[], 1, file⟩

/-! ## File handling helpers -/

/-- One iteration of the loop of `split_csv_line`, on the pair `(out, cur)`. -/
def split_step (st : List Str × Str) (c : Char) : List Str × Str :=
  if c = ',' then (st.1 ++ [st.2], []) else (st.1, st.2 ++ [c])

/-- The function `split_csv_line`: the loop, then the last `out.push_back(cur)`. -/
def split_csv_line (line : Str) : List Str :=
  let st := line.foldl split_step ([], [])
  st.1 ++ [st.2]

/-- The character `escape_commas` pushes for the character `c`. -/
def escape_char (c : Char) : Char :=
  if c = '\n' ∨ c = '\r' then ' ' else if c = ',' then ';' else c

/-- The function `escape_commas`: the loop pushes one character per input character. -/
def escape_commas (s : Str) : Str :=
  s.foldl (fun r c => r ++ [escape_char c]) []

/-! ## Library functions -/

/-- The C `isspace` in the default locale. -/
def isspace (c : Char) : Bool :=
  c = ' ' || c = '\t' || c = '\n' || c = '\x0b' || c = '\x0c' || c = '\r'

/-- A decimal digit character. -/
def isdigit (c : Char) : Bool := decide ('0' ≤ c) && decide (c ≤ '9')

/-- Value of a run of decimal digits, most significant first. -/
def digits_value (ds : Str) : Nat :=
  ds.foldl (fun a c => 10 * a + (c.toNat - 48)) 0

/-- Splits an optional sign off the front: `(negative, rest)`. -/
def strip_sign : Str → Bool × Str
  | '-' :: r => (true, r)
  | '+' :: r => (false, r)
  | s => (false, s)

/-- The library function `std::stoi(s)` (base 10): leading white space is skipped, an optional
sign is read, then the longest run of digits; what follows is ignored. `none` stands for
the two exceptions: no digit (`invalid_argument`), value outside `int` (`out_of_range`). -/
def stoi (s : Str) : Option Int :=
  let body := strip_sign (s.dropWhile isspace)
  let ds := body.2.takeWhile isdigit
  if ds = [] then none
  else
    let v : Int := if body.1 then -(digits_value ds : Int) else (digits_value ds : Int)
    if INT_MIN ≤ v ∧ v ≤ INT_MAX then some v else none

/-- The character of the digit `d`. -/
def digit_char (d : Nat) : Char := Char.ofNat (48 + d)

/-- Decimal digits of `n` in front of `acc`, least significant digit produced first. -/
def nat_digits_aux : Nat → Nat → Str → Str
  | 0, _, acc => acc
  | fuel + 1, n, acc =>
    if n / 10 = 0 then digit_char (n % 10) :: acc
    else nat_digits_aux fuel (n / 10) (digit_char (n % 10) :: acc)

/-- Decimal digits of a natural number, `"0"` for zero. -/
def nat_digits (n : Nat) : Str := nat_digits_aux (n + 1) n []

/-- What `out << t.id` writes for an `int`: the decimal digits, after `-` when negative. -/
def int_to_string (i : Int) : Str :=
  if i < 0 then '-' :: nat_digits i.natAbs else nat_digits i.natAbs

/-! ## load_tasks -/

/-- The reads of `while (getline(in, line))` over the rest of the stream, `cur` being the
characters of the current line read so far: a line ends at `'\n'` or at the end of the file,
and the read fails when the end of the file is reached with no character extracted. -/
def read_lines : Str → Str → List Str
  | [], cur => if cur = [] then [] else [cur]
  | c :: rest, cur =>
    if c = '\n' then cur :: read_lines rest [] else read_lines rest (cur ++ [c])

/-- The body of the loop of `load_tasks` up to the record `t`: `none` on each `continue`. -/
def parse_line (line : Str) : Option Task :=
  if line = [] then none
  else
    let parts := split_csv_line line
    if parts.length < 5 then none
    else
      match stoi (parts.getD 0 []) with
      | none => none
      | some id =>
        some { id := id, title := parts.getD 1 [], category := parts.getD 2 [],
               done := decide (parts.getD 3 [] = ['1']), created_at := parts.getD 4 [] }

/-- One iteration of the loop of `load_tasks` on the globals `(tasks, next_id)`. -/
def load_line (st : List Task × Int) (line : Str) : List Task × Int :=
  match parse_line line with
  | none => st
  | some t => (st.1 ++ [t], if t.id ≥ st.2 then wrap_int (t.id + 1) else st.2)

/-- The function `load_tasks`. -/
def load_tasks (w : World) : World :=
  match w.file with
  | none => { w with tasks := [] }
  | some content =>
    let st := (read_lines content []).foldl load_line ([], w.next_id)
    { w with tasks := st.1, next_id := st.2 }

/-! ## save_tasks -/

/-- The text one iteration of the loop of `save_tasks` sends to the stream, without the
final `"\n"`. -/
def save_line (t : Task) : Str :=
  int_to_string t.id ++ [','] ++ escape_commas t.title ++ [','] ++ escape_commas t.category
    ++ [','] ++ (if t.done then ['1'] else ['0']) ++ [','] ++ t.created_at

/-- The whole text `save_tasks` writes. -/
def save_text (ts : List Task) : Str :=
  ts.foldl (fun out t => out ++ save_line t ++ ['\n']) []

/-- The function `save_tasks`; `can_write = false` when the file cannot be opened for writing. -/
def save_tasks (can_write : Bool) (w : World) : World :=
  if can_write then { w with file := some (save_text w.tasks) } else w

/-! ## Commands -/

/-- The function `add_task`, on the title and category read from the console and the time
string `now` of `now_string()`. -/
def add_task (title cat now : Str) (can_write : Bool) (w : World) : World :=
  if title = [] then w
  else
    let t : Task := { id := w.next_id, title := title, category := cat, done := false,
                      created_at := now }
    save_tasks can_write { w with tasks := w.tasks ++ [t], next_id := wrap_int (w.next_id + 1) }

/-- The loop of `mark_complete`: flips the first record with the id, `none` when the loop
ends without a match. -/
def toggle_first (id : Int) : List Task → Option (List Task)
  | [] => none
  | t :: ts =>
    if t.id = id then some ({ t with done := !t.done } :: ts)
    else (toggle_first id ts).map (fun r => t :: r)

/-- The function `mark_complete`, on the id read from the console. -/
def mark_complete (id : Int) (can_write : Bool) (w : World) : World :=
  match toggle_first id w.tasks with
  | some ts => save_tasks can_write { w with tasks := ts }
  | none => w

/-- The function `delete_task`, on the id read from the console: `remove_if` keeps the records
with another id in order; `it != tasks.end()` exactly when one was removed. -/
def delete_task (id : Int) (can_write : Bool) (w : World) : World :=
  let kept := w.tasks.filter (fun t => !decide (t.id = id))
  if kept.length ≠ w.tasks.length then save_tasks can_write { w with tasks := kept } else w

/-- A command of the menu loop with the input it reads, or a change of the backing file
made from outside the program. -/
inductive Cmd where
  | add (title cat now : Str) (can_write : Bool)
  | toggle (id : Int) (can_write : Bool)
  | delete (id : Int) (can_write : Bool)
  | save (can_write : Bool)
  | load
  | set_file (file : Option Str)
  deriving DecidableEq

/-- Effect of one command. -/
def step (w : World) : Cmd → World
  | .add title cat now cw => add_task title cat now cw w
  | .toggle id cw => mark_complete id cw w
  | .delete id cw => delete_task id cw w
  | .save cw => save_tasks cw w
  | .load => load_tasks w
  | .set_file f => { w with file := f }

/-- Effect of a sequence of commands. -/
def run (w : World) (cmds : List Cmd) : World := cmds.foldl step w


/-! ## Predicates used in the statements -/

/-- A value of the type `int`. -/
def in_int_range (i : Int) : Prop := INT_MIN ≤ i ∧ i ≤ INT_MAX

instance (i : Int) : Decidable (in_int_range i) := by
  unfold in_int_range; infer_instance

/-- A text without comma, newline and carriage return. -/
def no_delims (s : Str) : Prop := ',' ∉ s ∧ '\n' ∉ s ∧ '\r' ∉ s

instance (s : Str) : Decidable (no_delims s) := by
  unfold no_delims; infer_instance

/-- A string of digits only, that is not empty and has the value `n`. -/
def IsDigitsOf (ds : Str) (n : Nat) : Prop :=
  ds ≠ [] ∧ (∀ c ∈ ds, ∃ d, d < 10 ∧ c = digit_char d) ∧ digits_value ds = n

/-- The done-flag field of a saved line. -/
def done_field (t : Task) : Str := if t.done then ['1'] else ['0']

/-- The counter update of one loaded record (`if (t.id >= next_id) next_id = t.id + 1`). -/
def bump (n : Int) (t : Task) : Int := if t.id ≥ n then wrap_int (t.id + 1) else n

/-- The records `load_tasks` reads from a file: the lines of the file that are not skipped,
decoded, in file order. -/
def file_records (file : Option Str) : List Task :=
  match file with
  | none => []
  | some content => (read_lines content []).filterMap parse_line

/-- The ids `add_task` gives out along a sequence of commands, in order: at each add, the ids
of the records the add appended to the collection. -/
def created_ids : World → List Cmd → List Int
  | _, [] => []
  | w, c :: cs =>
    (match c with
      | .add _ _ _ _ => ((step w c).tasks.drop w.tasks.length).map Task.id
      | _ => []) ++ created_ids (step w c) cs

/-- No increment overflows at this command: an add finds the counter below `INT_MAX`, a load
reads only ids below `INT_MAX`. -/
def no_overflow (w : World) : Cmd → Bool
  | .add title _ _ _ => decide (title = [] ∨ w.next_id < INT_MAX)
  | .load => (file_records w.file).all (fun t => decide (t.id < INT_MAX))
  | _ => true

/-- A load at this command reads records with pairwise distinct ids. -/
def distinct_file (w : World) : Cmd → Bool
  | .load => decide ((file_records w.file).map Task.id).Nodup
  | _ => true

/-- The condition `P` holds at every command of the sequence, in the state the command finds. -/
def run_all (P : World → Cmd → Bool) : World → List Cmd → Bool
  | _, [] => true
  | w, c :: cs => P w c && run_all P (step w c) cs

/-- Counter at least 1, ids pairwise distinct and all below the counter. -/
def StoreInv (w : World) : Prop :=
  1 ≤ w.next_id ∧ (w.tasks.map Task.id).Nodup ∧ ∀ t ∈ w.tasks, t.id < w.next_id

/-! ## Console reports and the listing -/

/-- The line a command prints on `cout` about its outcome. -/
inductive Report where
  | task_added (id : Int)
  | title_empty
  | marked (id : Int) (done : Bool)
  | deleted (id : Int)
  | not_found
  deriving DecidableEq

/-- What `add_task` prints: `Title cannot be empty.` or `Task added (id=..)`. -/
def add_task_report (title : Str) (w : World) : Report :=
  if title = [] then .title_empty else .task_added w.next_id

/-- What the loop of `mark_complete` prints: at the first record with the id, the new value
of its flag; `Task ID not found.` when the loop ends without a match. -/
def mark_complete_report (id : Int) : List Task → Report
  | [] => .not_found
  | t :: ts => if t.id = id then .marked id (!t.done) else mark_complete_report id ts

/-- What `delete_task` prints: `deleted` when `remove_if` removed a record, else
`Task ID not found.` -/
def delete_task_report (id : Int) (w : World) : Report :=
  let kept := w.tasks.filter (fun t => !decide (t.id = id))
  if kept.length ≠ w.tasks.length then .deleted id else .not_found

/-- The comparator of `list_all`: by `done` first (`false < true`), then by `id`. -/
def task_less (a b : Task) : Bool :=
  if a.done ≠ b.done then decide (a.done < b.done) else decide (a.id < b.id)

/-- The library function `std::sort(first, last, comp)`: the sequence reordered so that no
element is `comp`-less than one before it. The order of equivalent elements is not fixed by
the library; insertion sort gives one such result. -/
def std_sort (comp : Task → Task → Bool) (l : List Task) : List Task :=
  l.insertionSort (fun a b => comp b a = false)

/-- The function `list_all`: the globals after the call and the rows printed, in order
(no row when the collection is empty). It sorts a copy of `tasks`. -/
def list_all (w : World) : World × List Task :=
  if w.tasks = [] then (w, []) else (w, std_sort task_less w.tasks)

/-- A load at this command reads only records with a title that is not empty. -/
def titled_file (w : World) : Cmd → Bool
  | .load => (file_records w.file).all (fun t => decide (t.title ≠ []))
  | _ => true

/-! ## Splitting -/

theorem foldl_split_step_out (l : Str) (out : List Str) (cur : Str) :
    l.foldl split_step (out, cur)
      = (out ++ (l.foldl split_step ([], cur)).1, (l.foldl split_step ([], cur)).2) := by
  induction l generalizing out cur with
  | nil => simp
  | cons c l ih =>
    simp only [List.foldl_cons, split_step]
    by_cases hc : c = ','
    · simp only [hc, if_true]
      rw [ih (out ++ [cur]) [], ih ([] ++ [cur]) []]
      simp
    · simp only [hc, if_false]
      rw [ih out (cur ++ [c])]

theorem foldl_split_step_no_comma (a : Str) (h : ',' ∉ a) (out : List Str) (cur : Str) :
    a.foldl split_step (out, cur) = (out, cur ++ a) := by
  induction a generalizing cur with
  | nil => simp
  | cons c a ih =>
    have hc : c ≠ ',' := fun e => h (by simp [e])
    have ha : ',' ∉ a := fun e => h (by simp [e])
    simp only [List.foldl_cons, split_step, hc, if_false]
    rw [ih ha]
    simp

theorem split_csv_line_no_comma (a : Str) (h : ',' ∉ a) : split_csv_line a = [a] := by
  simp [split_csv_line, foldl_split_step_no_comma a h]

theorem split_csv_line_field (a rest : Str) (h : ',' ∉ a) :
    split_csv_line (a ++ ',' :: rest) = a :: split_csv_line rest := by
  simp only [split_csv_line, List.foldl_append, List.foldl_cons,
    foldl_split_step_no_comma a h, split_step, if_true]
  rw [foldl_split_step_out]
  simp

/-! ## Escaping -/

theorem escape_commas_eq_map (s : Str) : escape_commas s = s.map escape_char := by
  have h : ∀ (l r : Str), l.foldl (fun r c => r ++ [escape_char c]) r = r ++ l.map escape_char := by
    intro l
    induction l with
    | nil => simp
    | cons c l ih => intro r; simp [ih]
  simpa [escape_commas] using h s []

theorem escape_char_ne (c : Char) :
    escape_char c ≠ ',' ∧ escape_char c ≠ '\n' ∧ escape_char c ≠ '\r' := by
  unfold escape_char
  by_cases h1 : c = '\n' ∨ c = '\r'
  · simp only [h1, if_true]; decide
  · simp only [h1, if_false]
    by_cases h2 : c = ','
    · simp only [h2, if_true]; decide
    · simp only [h2, if_false]
      push_neg at h1
      exact ⟨h2, h1.1, h1.2⟩

theorem escape_char_clean (c : Char) (h1 : c ≠ ',') (h2 : c ≠ '\n') (h3 : c ≠ '\r') :
    escape_char c = c := by
  simp [escape_char, h1, h2, h3]

theorem escape_commas_no_comma (s : Str) : ',' ∉ escape_commas s := by
  rw [escape_commas_eq_map]
  intro h
  obtain ⟨c, _, hc⟩ := List.mem_map.1 h
  exact (escape_char_ne c).1 hc

theorem escape_commas_no_newline (s : Str) : '\n' ∉ escape_commas s := by
  rw [escape_commas_eq_map]
  intro h
  obtain ⟨c, _, hc⟩ := List.mem_map.1 h
  exact (escape_char_ne c).2.1 hc

theorem escape_commas_clean (s : Str) (h1 : ',' ∉ s) (h2 : '\n' ∉ s) (h3 : '\r' ∉ s) :
    escape_commas s = s := by
  rw [escape_commas_eq_map]
  conv_rhs => rw [← List.map_id s]
  apply List.map_congr_left
  intro c hc
  exact escape_char_clean c (fun e => h1 (e ▸ hc)) (fun e => h2 (e ▸ hc)) (fun e => h3 (e ▸ hc))

/-! ## Decimal digits -/

theorem digit_char_spec : ∀ d : Nat, d < 10 →
    isdigit (digit_char d) = true ∧ (digit_char d).toNat - 48 = d ∧ isspace (digit_char d) = false
      ∧ digit_char d ≠ '-' ∧ digit_char d ≠ '+' ∧ digit_char d ≠ ',' ∧ digit_char d ≠ '\n' := by
  decide

theorem digits_value_snoc (ds : Str) (c : Char) :
    digits_value (ds ++ [c]) = 10 * digits_value ds + (c.toNat - 48) := by
  simp [digits_value]

theorem nat_digits_aux_spec (fuel : Nat) : ∀ (n : Nat) (acc : Str), n < fuel →
    ∃ ds, nat_digits_aux fuel n acc = ds ++ acc ∧ IsDigitsOf ds n := by
  induction fuel with
  | zero => intro n acc h; omega
  | succ fuel ih =>
    intro n acc h
    have hd : n % 10 < 10 := Nat.mod_lt _ (by norm_num)
    have hv := (digit_char_spec (n % 10) hd).2.1
    by_cases h0 : n / 10 = 0
    · refine ⟨[digit_char (n % 10)], by simp [nat_digits_aux, h0], by simp, ?_, ?_⟩
      · intro c hc
        exact ⟨n % 10, hd, by simpa using hc⟩
      · simp only [digits_value, List.foldl_cons, List.foldl_nil, hv]
        omega
    · obtain ⟨ds, hds, hne, hall, hval⟩ :=
        ih (n / 10) (digit_char (n % 10) :: acc) (by omega)
      refine ⟨ds ++ [digit_char (n % 10)], by simp [nat_digits_aux, h0, hds], by simp, ?_, ?_⟩
      · intro c hc
        rcases List.mem_append.1 hc with hc | hc
        · exact hall c hc
        · exact ⟨n % 10, hd, by simpa using hc⟩
      · rw [digits_value_snoc, hval, hv]
        omega

theorem nat_digits_spec (n : Nat) : IsDigitsOf (nat_digits n) n := by
  obtain ⟨ds, hds, h⟩ := nat_digits_aux_spec (n + 1) n [] (by omega)
  have : nat_digits n = ds := by simpa [nat_digits] using hds
  rw [this]
  exact h

theorem IsDigitsOf.takeWhile {ds : Str} {n : Nat} (h : IsDigitsOf ds n) :
    ds.takeWhile isdigit = ds := by
  apply List.takeWhile_eq_self_iff.2
  intro c hc
  obtain ⟨d, hd, rfl⟩ := h.2.1 c hc
  exact (digit_char_spec d hd).1

theorem IsDigitsOf.head {ds : Str} {n : Nat} (h : IsDigitsOf ds n) :
    ∃ d rest, d < 10 ∧ ds = digit_char d :: rest := by
  obtain ⟨hne, hall, _⟩ := h
  cases ds with
  | nil => exact absurd rfl hne
  | cons c rest =>
    obtain ⟨d, hd, rfl⟩ := hall c (by simp)
    exact ⟨d, rest, hd, rfl⟩

theorem stoi_digits {ds : Str} {n : Nat} (h : IsDigitsOf ds n) (hn : (n : Int) ≤ INT_MAX) :
    stoi ds = some (n : Int) := by
  obtain ⟨d, rest, hd, rfl⟩ := h.head
  obtain ⟨_, _, hsp, hm, hp, _, _⟩ := digit_char_spec d hd
  have h1 : (digit_char d :: rest).dropWhile isspace = digit_char d :: rest := by
    simp [List.dropWhile, hsp]
  have h2 : strip_sign (digit_char d :: rest) = (false, digit_char d :: rest) := by
    unfold strip_sign
    split
    · next heq => exact absurd (List.cons.inj heq).1 hm
    · next heq => exact absurd (List.cons.inj heq).1 hp
    · rfl
  have h3 : (0 : Int) ≤ n := Int.ofNat_nonneg n
  simp only [stoi, h1, h2, h.takeWhile, h.2.2]
  simp only [INT_MIN, INT_MAX] at *
  rw [if_neg (by simp), if_pos ⟨by omega, hn⟩]
  simp

theorem stoi_neg_digits {ds : Str} {n : Nat} (h : IsDigitsOf ds n) (hn : INT_MIN ≤ -(n : Int)) :
    stoi ('-' :: ds) = some (-(n : Int)) := by
  have h1 : ('-' :: ds).dropWhile isspace = '-' :: ds := by
    simp [List.dropWhile, isspace]
  have hne : ds ≠ [] := h.1
  simp only [stoi, h1, strip_sign, h.takeWhile, h.2.2]
  simp only [INT_MIN, INT_MAX] at *
  have h3 : -(n : Int) ≤ 2147483647 := by omega
  rw [if_neg hne, if_pos ⟨hn, h3⟩]
  simp

theorem stoi_int_to_string (i : Int) (h1 : INT_MIN ≤ i) (h2 : i ≤ INT_MAX) :
    stoi (int_to_string i) = some i := by
  unfold int_to_string
  by_cases hi : i < 0
  · rw [if_pos hi]
    have e : -((i.natAbs : Nat) : Int) = i := by omega
    have := stoi_neg_digits (nat_digits_spec i.natAbs) (by rw [e]; exact h1)
    rw [this, e]
  · rw [if_neg hi]
    have e : ((i.natAbs : Nat) : Int) = i := by omega
    have := stoi_digits (nat_digits_spec i.natAbs) (by rw [e]; exact h2)
    rw [this, e]

theorem int_to_string_no_comma (i : Int) : ',' ∉ int_to_string i := by
  have key : ',' ∉ nat_digits i.natAbs := by
    intro hc
    obtain ⟨d, hd, e⟩ := (nat_digits_spec i.natAbs).2.1 _ hc
    exact (digit_char_spec d hd).2.2.2.2.2.1 e.symm
  unfold int_to_string
  split
  · intro hc
    rcases List.mem_cons.1 hc with hc | hc
    · exact absurd hc (by decide)
    · exact key hc
  · exact key

theorem int_to_string_no_newline (i : Int) : '\n' ∉ int_to_string i := by
  have key : '\n' ∉ nat_digits i.natAbs := by
    intro hc
    obtain ⟨d, hd, e⟩ := (nat_digits_spec i.natAbs).2.1 _ hc
    exact (digit_char_spec d hd).2.2.2.2.2.2 e.symm
  unfold int_to_string
  split
  · intro hc
    rcases List.mem_cons.1 hc with hc | hc
    · exact absurd hc (by decide)
    · exact key hc
  · exact key

/-! ## The line of one record -/

theorem done_field_no_comma (t : Task) : ',' ∉ done_field t := by
  unfold done_field; split <;> decide

theorem done_field_decide (t : Task) : decide (done_field t = ['1']) = t.done := by
  unfold done_field; cases t.done <;> decide

theorem save_line_eq (t : Task) :
    save_line t = int_to_string t.id ++ ',' :: (escape_commas t.title ++ ',' ::
      (escape_commas t.category ++ ',' :: (done_field t ++ ',' :: t.created_at))) := by
  simp [save_line, done_field]

theorem split_csv_line_ne_nil (line : Str) : split_csv_line line ≠ [] := by
  simp [split_csv_line]

theorem split_save_line (t : Task) :
    split_csv_line (save_line t) = int_to_string t.id :: escape_commas t.title ::
      escape_commas t.category :: done_field t :: split_csv_line t.created_at := by
  rw [save_line_eq, split_csv_line_field _ _ (int_to_string_no_comma _),
    split_csv_line_field _ _ (escape_commas_no_comma _),
    split_csv_line_field _ _ (escape_commas_no_comma _),
    split_csv_line_field _ _ (done_field_no_comma _)]

theorem save_line_ne_nil (t : Task) : save_line t ≠ [] := by
  rw [save_line_eq]; simp

/-- Decoding the saved line of any record with an `int` id: the text fields come back escaped,
and `created_at` comes back cut at its first comma. -/
theorem parse_save_line (t : Task) (h1 : INT_MIN ≤ t.id) (h2 : t.id ≤ INT_MAX) :
    parse_line (save_line t) = some (Task.mk t.id (escape_commas t.title)
      (escape_commas t.category) t.done ((split_csv_line t.created_at).getD 0 [])) := by
  obtain ⟨f, fs, hf⟩ := List.exists_cons_of_ne_nil (split_csv_line_ne_nil t.created_at)
  simp only [parse_line, if_neg (save_line_ne_nil t), split_save_line, hf,
    List.length_cons, List.getD_cons_zero, List.getD_cons_succ, stoi_int_to_string t.id h1 h2,
    done_field_decide]
  rw [if_neg (by omega)]

theorem parse_save_line_clean (t : Task) (h1 : INT_MIN ≤ t.id) (h2 : t.id ≤ INT_MAX)
    (ht : ',' ∉ t.title ∧ '\n' ∉ t.title ∧ '\r' ∉ t.title)
    (hc : ',' ∉ t.category ∧ '\n' ∉ t.category ∧ '\r' ∉ t.category)
    (ha : ',' ∉ t.created_at) :
    parse_line (save_line t) = some t := by
  rw [parse_save_line t h1 h2, split_csv_line_no_comma _ ha,
    escape_commas_clean _ ht.1 ht.2.1 ht.2.2, escape_commas_clean _ hc.1 hc.2.1 hc.2.2]
  rfl

/-! ## The lines of a file -/

theorem read_lines_line (l rest cur : Str) (h : '\n' ∉ l) :
    read_lines (l ++ '\n' :: rest) cur = (cur ++ l) :: read_lines rest [] := by
  induction l generalizing cur with
  | nil => simp [read_lines]
  | cons c l ih =>
    have hc : c ≠ '\n' := fun e => h (by simp [e])
    have hl : '\n' ∉ l := fun e => h (by simp [e])
    simp only [List.cons_append, read_lines, hc, if_false, List.append_eq]
    rw [ih _ hl]
    simp

theorem save_text_acc (ts : List Task) (acc : Str) :
    ts.foldl (fun out t => out ++ save_line t ++ ['\n']) acc = acc ++ save_text ts := by
  induction ts generalizing acc with
  | nil => simp [save_text]
  | cons t ts ih =>
    simp only [save_text, List.foldl_cons]
    rw [ih, ih ([] ++ save_line t ++ ['\n'])]
    simp

theorem save_text_nil : save_text [] = [] := rfl

theorem save_text_cons (t : Task) (ts : List Task) :
    save_text (t :: ts) = save_line t ++ '\n' :: save_text ts := by
  simp only [save_text, List.foldl_cons]
  rw [save_text_acc]
  simp [save_text]

theorem save_line_no_newline (t : Task) (h : '\n' ∉ t.created_at) : '\n' ∉ save_line t := by
  rw [save_line_eq]
  have hd : '\n' ∉ done_field t := by unfold done_field; split <;> decide
  have h1 := int_to_string_no_newline t.id
  have h2 := escape_commas_no_newline t.title
  have h3 := escape_commas_no_newline t.category
  simp only [List.mem_append, List.mem_cons, not_or]
  exact ⟨h1, by decide, h2, by decide, h3, by decide, hd, by decide, h⟩

theorem read_lines_save_text (ts : List Task) (h : ∀ t ∈ ts, '\n' ∉ t.created_at) :
    read_lines (save_text ts) [] = ts.map save_line := by
  induction ts with
  | nil => simp [save_text, read_lines]
  | cons t ts ih =>
    rw [save_text_cons, read_lines_line _ _ _ (save_line_no_newline t (h t (by simp))),
      ih (fun u hu => h u (by simp [hu]))]
    simp

/-! ## The loop of load_tasks -/

theorem foldl_load_line (lines : List Str) (acc : List Task) (n : Int) :
    lines.foldl load_line (acc, n)
      = (acc ++ lines.filterMap parse_line, (lines.filterMap parse_line).foldl bump n) := by
  induction lines generalizing acc n with
  | nil => simp
  | cons l lines ih =>
    simp only [List.foldl_cons, load_line]
    cases hp : parse_line l with
    | none => simp [ih, hp]
    | some t => simp [ih, hp, bump]

theorem load_tasks_tasks (w : World) : (load_tasks w).tasks = file_records w.file := by
  unfold load_tasks file_records
  cases w.file with
  | none => rfl
  | some content => simp [foldl_load_line]

theorem load_tasks_next_id (w : World) :
    (load_tasks w).next_id = (file_records w.file).foldl bump w.next_id := by
  unfold load_tasks file_records
  cases w.file with
  | none => rfl
  | some content => simp [foldl_load_line]

theorem load_tasks_file (w : World) : (load_tasks w).file = w.file := by
  unfold load_tasks
  cases w.file <;> rfl

/-! ## The codec: claims on single lines -/

/-- C1 (counterexample): a record with clean title and category whose `created_at` holds a
comma is not reproduced by decoding its saved line: `created_at` comes back cut at the
comma. -/
theorem roundtrip_fails_on_comma_in_created_at :
    in_int_range (Task.mk 1 ['a'] ['b'] false ['x', ',', 'y']).id
      ∧ no_delims (Task.mk 1 ['a'] ['b'] false ['x', ',', 'y']).title
      ∧ no_delims (Task.mk 1 ['a'] ['b'] false ['x', ',', 'y']).category
      ∧ parse_line (save_line (Task.mk 1 ['a'] ['b'] false ['x', ',', 'y']))
          = some (Task.mk 1 ['a'] ['b'] false ['x'])
      ∧ parse_line (save_line (Task.mk 1 ['a'] ['b'] false ['x', ',', 'y']))
          ≠ some (Task.mk 1 ['a'] ['b'] false ['x', ',', 'y']) := by
  decide

/-- C1 (amended): for every record with an `int` id whose title and category hold no comma,
newline or carriage return and whose `created_at` holds no comma, decoding the line
`save_tasks` writes for it with the line decoder of `load_tasks` gives back the record, equal
in all five fields. -/
theorem parse_line_save_line_roundtrip (r : Task) (hid : in_int_range r.id)
    (ht : no_delims r.title) (hc : no_delims r.category) (ha : ',' ∉ r.created_at) :
    parse_line (save_line r) = some r :=
  parse_save_line_clean r hid.1 hid.2 ht hc ha

/-- C1 (witness): the amended round trip at the record
`7, "Buy milk", "home", done, "2024-01-05 10:00:00"`. -/
theorem parse_line_save_line_roundtrip_witness :
    parse_line (save_line (Task.mk 7 ['B', 'u', 'y', ' ', 'm', 'i', 'l', 'k'] ['h', 'o', 'm', 'e']
        true ['2', '0', '2', '4', '-', '0', '1', '-', '0', '5', ' ', '1', '0', ':', '0', '0', ':',
          '0', '0']))
      = some (Task.mk 7 ['B', 'u', 'y', ' ', 'm', 'i', 'l', 'k'] ['h', 'o', 'm', 'e']
        true ['2', '0', '2', '4', '-', '0', '1', '-', '0', '5', ' ', '1', '0', ':', '0', '0', ':',
          '0', '0']) :=
  parse_line_save_line_roundtrip _ (by decide) (by decide) (by decide) (by decide)

/-! ## Save, then load -/

theorem filterMap_parse_save_line (ts : List Task)
    (h : ∀ t ∈ ts, in_int_range t.id ∧ no_delims t.title ∧ no_delims t.category
      ∧ ',' ∉ t.created_at) :
    (ts.map save_line).filterMap parse_line = ts := by
  induction ts with
  | nil => rfl
  | cons t ts ih =>
    obtain ⟨hid, ht, hc, ha⟩ := h t (by simp)
    simp only [List.map_cons, List.filterMap_cons, parse_save_line_clean t hid.1 hid.2 ht hc ha]
    rw [ih (fun u hu => h u (by simp [hu]))]

theorem file_records_save_text (ts : List Task)
    (h : ∀ t ∈ ts, in_int_range t.id ∧ no_delims t.title ∧ no_delims t.category
      ∧ ',' ∉ t.created_at ∧ '\n' ∉ t.created_at) :
    file_records (some (save_text ts)) = ts := by
  simp only [file_records]
  rw [read_lines_save_text ts (fun t ht => (h t ht).2.2.2.2)]
  exact filterMap_parse_save_line ts (fun t ht =>
    ⟨(h t ht).1, (h t ht).2.1, (h t ht).2.2.1, (h t ht).2.2.2.1⟩)

/-- C2: for every state whose records (with `int` ids) hold no comma, newline or carriage
return in their text fields `title`, `category` and `created_at`, a successful `save_tasks`
followed by `load_tasks` on the file just written gives a collection equal to the one
before the save: same records, same order, all five fields. -/
theorem save_then_load_reproduces (w : World)
    (hid : ∀ t ∈ w.tasks, in_int_range t.id)
    (h : ∀ t ∈ w.tasks, no_delims t.title ∧ no_delims t.category ∧ no_delims t.created_at) :
    (load_tasks (save_tasks true w)).tasks = w.tasks := by
  rw [load_tasks_tasks]
  simp only [save_tasks, if_true]
  exact file_records_save_text w.tasks (fun t ht =>
    ⟨hid t ht, (h t ht).1, (h t ht).2.1, (h t ht).2.2.1, (h t ht).2.2.2.1⟩)

/-- C2 (witness): two records, one done, one with an empty category, saved and loaded. -/
theorem save_then_load_reproduces_witness :
    (load_tasks (save_tasks true
        ⟨[Task.mk 1 ['a', 'b'] [] false ['t', '1'], Task.mk 2 ['c'] ['w'] true ['t', '2']],
          3, none⟩)).tasks
      = [Task.mk 1 ['a', 'b'] [] false ['t', '1'], Task.mk 2 ['c'] ['w'] true ['t', '2']] :=
  save_then_load_reproduces _ (by decide) (by decide)

/-! ## The encoding of a record -/

/-- C5 (counterexample): the record `1, "t", "c", pending, "a,b"` is written with its
`created_at` unescaped, `"1,t,c,0,a,b"`, and not as the join of the escaped fields,
`"1,t,c,0,a;b"`. -/
theorem save_line_created_at_not_escaped :
    save_line (Task.mk 1 ['t'] ['c'] false ['a', ',', 'b'])
        = ['1', ',', 't', ',', 'c', ',', '0', ',', 'a', ',', 'b']
      ∧ save_line (Task.mk 1 ['t'] ['c'] false ['a', ',', 'b'])
        ≠ [','].intercalate [int_to_string 1, escape_commas ['t'], escape_commas ['c'], ['0'],
            escape_commas ['a', ',', 'b']] := by
  decide

/-- C5 (amended): for every record, the line `save_tasks` writes is the comma-join of five
fields in this order: the decimal digits of the id, the escaped title, the escaped
category, `"1"` if done else `"0"`, and `created_at` as it is, unescaped; the file is these
lines in collection order, each followed by a newline. -/
theorem save_line_is_comma_join (r : Task) (ts : List Task) :
    save_line r = [','].intercalate [int_to_string r.id, escape_commas r.title,
        escape_commas r.category, if r.done then ['1'] else ['0'], r.created_at]
      ∧ save_text ts = (ts.map (fun t => save_line t ++ ['\n'])).flatten := by
  constructor
  · simp [save_line, List.intercalate, List.intersperse]
  · induction ts with
    | nil => rfl
    | cons t ts ih => rw [save_text_cons, List.map_cons, List.flatten_cons, ← ih]; simp

/-- C6: `escape_commas s` has the length of `s`; at each position it holds a space where `s`
has a newline or carriage return, a semicolon where `s` has a comma, and the character of `s`
otherwise; it holds no comma, newline or carriage return; and it is `s` when `s` holds none
of them. -/
theorem escape_commas_spec (s : Str) :
    (escape_commas s).length = s.length
      ∧ (∀ (i : Nat) (c : Char), s[i]? = some c →
          (escape_commas s)[i]? =
            some (if c = '\n' ∨ c = '\r' then ' ' else if c = ',' then ';' else c))
      ∧ (',' ∉ escape_commas s ∧ '\n' ∉ escape_commas s ∧ '\r' ∉ escape_commas s)
      ∧ ((',' ∉ s ∧ '\n' ∉ s ∧ '\r' ∉ s) → escape_commas s = s) := by
  refine ⟨by simp [escape_commas_eq_map], ?_, ⟨escape_commas_no_comma s,
    escape_commas_no_newline s, ?_⟩, fun h => escape_commas_clean s h.1 h.2.1 h.2.2⟩
  · intro i c hc
    simp [escape_commas_eq_map, hc, escape_char]
  · rw [escape_commas_eq_map]
    intro h
    obtain ⟨c, _, hc⟩ := List.mem_map.1 h
    exact (escape_char_ne c).2.2 hc

/-! ## The line decoder of load_tasks -/

theorem parse_line_eq_none_iff (line : Str) :
    parse_line line = none ↔
      (split_csv_line line).length < 5 ∨ stoi ((split_csv_line line).getD 0 []) = none := by
  unfold parse_line
  by_cases h0 : line = []
  · subst h0
    simp [split_csv_line]
  · simp only [if_neg h0]
    by_cases h5 : (split_csv_line line).length < 5
    · simp [h5]
    · simp only [if_neg h5, h5, false_or]
      cases stoi ((split_csv_line line).getD 0 []) <;> simp

theorem parse_line_of_fields (line : Str) (i : Int) (h5 : 5 ≤ (split_csv_line line).length)
    (hi : stoi ((split_csv_line line).getD 0 []) = some i) :
    parse_line line = some (Task.mk i ((split_csv_line line).getD 1 [])
      ((split_csv_line line).getD 2 []) (decide ((split_csv_line line).getD 3 [] = ['1']))
      ((split_csv_line line).getD 4 [])) := by
  have h0 : line ≠ [] := by
    rintro rfl
    simp [split_csv_line] at h5
  simp only [parse_line, if_neg h0, if_neg (not_lt.2 h5), hi]

/-- C7: the decoder of `load_tasks` skips a line exactly when it splits into fewer than five
fields (the empty line is such a line) or `stoi` fails on its first field; a skipped line
leaves the collection and the counter as they are, and a line with at least five fields
whose first field parses produces a record, appended to the collection. The decoder is a
total function, a failed parse being a result: the lines `3,Task A` and `abc,Title,,0,ts`
are skipped. -/
theorem parse_line_skips_exactly_malformed (line : Str) (st : List Task × Int) :
    (parse_line line = none ↔
        (split_csv_line line).length < 5 ∨ stoi ((split_csv_line line).getD 0 []) = none)
      ∧ (line = [] → (split_csv_line line).length < 5)
      ∧ (parse_line line = none → load_line st line = st)
      ∧ (∀ i : Int, 5 ≤ (split_csv_line line).length →
          stoi ((split_csv_line line).getD 0 []) = some i →
          ∃ t, parse_line line = some t ∧ t.id = i ∧ (load_line st line).1 = st.1 ++ [t])
      ∧ parse_line ['3', ',', 'T', 'a', 's', 'k', ' ', 'A'] = none
      ∧ parse_line ['a', 'b', 'c', ',', 'T', 'i', 't', 'l', 'e', ',', ',', '0', ',', 't', 's']
          = none := by
  refine ⟨parse_line_eq_none_iff line, ?_, ?_, ?_, by decide, by decide⟩
  · rintro rfl
    simp [split_csv_line]
  · intro h
    simp [load_line, h]
  · intro i h5 hi
    refine ⟨_, parse_line_of_fields line i h5 hi, rfl, ?_⟩
    simp [load_line, parse_line_of_fields line i h5 hi]

theorem parse_line_some (line : Str) (t : Task) (h : parse_line line = some t) :
    ∃ p0 p1 p2 p3 p4 rest, split_csv_line line = p0 :: p1 :: p2 :: p3 :: p4 :: rest
      ∧ stoi p0 = some t.id ∧ t.title = p1 ∧ t.category = p2 ∧ t.done = decide (p3 = ['1'])
      ∧ t.created_at = p4 := by
  have hn : parse_line line ≠ none := by rw [h]; simp
  rw [Ne, parse_line_eq_none_iff, not_or, not_lt] at hn
  obtain ⟨h5, hs⟩ := hn
  obtain ⟨i, hi⟩ := Option.ne_none_iff_exists'.1 hs
  rw [parse_line_of_fields line i h5 hi] at h
  have ht := (Option.some.inj h).symm
  match hp : split_csv_line line, h5 with
  | p0 :: p1 :: p2 :: p3 :: p4 :: rest, _ =>
    refine ⟨p0, p1, p2, p3, p4, rest, rfl, ?_⟩
    simp only [hp, List.getD_cons_zero, List.getD_cons_succ] at hi ht
    subst ht
    exact ⟨hi, rfl, rfl, rfl, rfl⟩

theorem parse_line_of_first_five (line : Str) (p0 p1 p2 p3 p4 : Str) (i : Int)
    (h5 : (split_csv_line line).take 5 = [p0, p1, p2, p3, p4]) (hi : stoi p0 = some i) :
    parse_line line = some (Task.mk i p1 p2 (decide (p3 = ['1'])) p4) := by
  match hp : split_csv_line line with
  | [] => rw [hp] at h5; simp at h5
  | [_] => rw [hp] at h5; simp at h5
  | [_, _] => rw [hp] at h5; simp at h5
  | [_, _, _] => rw [hp] at h5; simp at h5
  | [_, _, _, _] => rw [hp] at h5; simp at h5
  | q0 :: q1 :: q2 :: q3 :: q4 :: rest =>
    rw [hp] at h5
    simp only [List.take_succ_cons, List.take_zero, List.cons.injEq, and_true] at h5
    obtain ⟨rfl, rfl, rfl, rfl, rfl⟩ := h5
    have h := parse_line_of_fields line i (by rw [hp]; simp) (by rw [hp]; simpa using hi)
    rw [h, hp]
    rfl

/-- C8 (counterexample): the line `5,a,b,1,ts,more` has six fields, not five, and is not
skipped: it decodes to the record `5, "a", "b", done, "ts"`, its sixth field ignored. -/
theorem parse_line_accepts_six_fields :
    (split_csv_line ['5', ',', 'a', ',', 'b', ',', '1', ',', 't', 's', ',', 'm', 'o', 'r',
        'e']).length = 6
      ∧ parse_line ['5', ',', 'a', ',', 'b', ',', '1', ',', 't', 's', ',', 'm', 'o', 'r', 'e']
        = some (Task.mk 5 ['a'] ['b'] true ['t', 's'])
      ∧ parse_line ['5', ',', 'a', ',', 'b', ',', '1', ',', 't', 's', ',', 'm', 'o', 'r', 'e']
        ≠ none := by
  decide

/-- C8 (amended): for every line that is not skipped, the line has at least five fields
(not exactly five), the id of the record is the integer parsed from field 0, its title is
field 1, its category is field 2, its `created_at` is field 4, all taken as they are, and it
is done exactly when field 3 is the one-character string `1`. Fields after the fifth are
ignored: every line with the same first five fields decodes to the same record. -/
theorem parse_line_field_mapping (line : Str) (t : Task) (h : parse_line line = some t) :
    5 ≤ (split_csv_line line).length
      ∧ (∃ f0, (split_csv_line line)[0]? = some f0 ∧ stoi f0 = some t.id)
      ∧ (split_csv_line line)[1]? = some t.title
      ∧ (split_csv_line line)[2]? = some t.category
      ∧ (split_csv_line line)[4]? = some t.created_at
      ∧ (t.done = true ↔ (split_csv_line line)[3]? = some ['1'])
      ∧ (∀ line2 : Str, (split_csv_line line2).take 5 = (split_csv_line line).take 5 →
          parse_line line2 = some t) := by
  obtain ⟨p0, p1, p2, p3, p4, rest, hp, h0, h1, h2, h3, h4⟩ := parse_line_some line t h
  rw [hp]
  refine ⟨by simp, ⟨p0, by simp, h0⟩, by simp [h1], by simp [h2], by simp [h4], by simp [h3],
    ?_⟩
  intro line2 h2eq
  have h5 : (split_csv_line line2).take 5 = [p0, p1, p2, p3, p4] := by
    rw [h2eq]; simp
  rw [parse_line_of_first_five line2 p0 p1 p2 p3 p4 t.id h5 h0]
  cases t
  simp only at h1 h2 h3 h4
  subst h1 h2 h3 h4
  rfl

/-- C8 (witness): the lines `5,a,b, 1,ts`, `5,a,b,true,ts` and `5,a,b,,ts` decode to pending
records; the line `5,a,b,1,ts` decodes to a done one with its five fields in order. -/
theorem parse_line_field_mapping_witness :
    parse_line ['5', ',', 'a', ',', 'b', ',', ' ', '1', ',', 't', 's']
        = some (Task.mk 5 ['a'] ['b'] false ['t', 's'])
      ∧ parse_line ['5', ',', 'a', ',', 'b', ',', 't', 'r', 'u', 'e', ',', 't', 's']
        = some (Task.mk 5 ['a'] ['b'] false ['t', 's'])
      ∧ parse_line ['5', ',', 'a', ',', 'b', ',', ',', 't', 's']
        = some (Task.mk 5 ['a'] ['b'] false ['t', 's'])
      ∧ ((Task.mk 5 ['a'] ['b'] true ['t', 's']).done = true ↔
          (split_csv_line ['5', ',', 'a', ',', 'b', ',', '1', ',', 't', 's'])[3]?
            = some ['1']) :=
  ⟨by decide, by decide, by decide,
    (parse_line_field_mapping
      ['5', ',', 'a', ',', 'b', ',', '1', ',', 't', 's']
      (Task.mk 5 ['a'] ['b'] true ['t', 's']) (by decide)).2.2.2.2.2.1⟩

/-- C10: after `load_tasks` the collection is the list of the records decoded from the lines
of the file that are not skipped, in file order, whatever the collection was before; it is
empty when the file is missing or empty. -/
theorem load_tasks_replaces (w : World) :
    (∀ content, w.file = some content →
        (load_tasks w).tasks = (read_lines content []).filterMap parse_line)
      ∧ (∀ w2 : World, w2.file = w.file → (load_tasks w2).tasks = (load_tasks w).tasks)
      ∧ (w.file = none → (load_tasks w).tasks = [])
      ∧ (w.file = some [] → (load_tasks w).tasks = []) := by
  refine ⟨?_, ?_, ?_, ?_⟩
  · intro content h
    rw [load_tasks_tasks, h]; rfl
  · intro w2 h
    rw [load_tasks_tasks, load_tasks_tasks, h]
  · intro h
    rw [load_tasks_tasks, h]; rfl
  · intro h
    rw [load_tasks_tasks, h]; rfl

/-! ## The counter -/

theorem wrap_int_of_range (x : Int) (h1 : INT_MIN ≤ x) (h2 : x ≤ INT_MAX) : wrap_int x = x := by
  simp only [INT_MIN, INT_MAX] at h1 h2
  unfold wrap_int
  omega

theorem some_in_range (v i : Int)
    (h : (if INT_MIN ≤ v ∧ v ≤ INT_MAX then some v else none) = some i) : in_int_range i := by
  by_cases hr : INT_MIN ≤ v ∧ v ≤ INT_MAX
  · rw [if_pos hr] at h
    rw [← Option.some.inj h]
    exact hr
  · rw [if_neg hr] at h
    exact absurd h (by simp)

theorem stoi_range (s : Str) (i : Int) (h : stoi s = some i) : in_int_range i := by
  unfold stoi at h
  by_cases hd : (strip_sign (s.dropWhile isspace)).2.takeWhile isdigit = []
  · simp [hd] at h
  · simp only [if_neg hd] at h
    exact some_in_range _ _ h

theorem parse_line_id_range (line : Str) (t : Task) (h : parse_line line = some t) :
    in_int_range t.id := by
  obtain ⟨p0, _, _, _, _, _, _, h0, _⟩ := parse_line_some line t h
  exact stoi_range p0 t.id h0

theorem file_records_id_range (file : Option Str) (t : Task) (h : t ∈ file_records file) :
    in_int_range t.id := by
  unfold file_records at h
  cases file with
  | none => simp at h
  | some content =>
    obtain ⟨line, _, hl⟩ := List.mem_filterMap.1 h
    exact parse_line_id_range line t hl

theorem bump_eq_max (n : Int) (t : Task) (h1 : INT_MIN ≤ t.id) (h2 : t.id < INT_MAX) :
    bump n t = max n (t.id + 1) := by
  unfold bump
  simp only [INT_MIN, INT_MAX] at h1 h2
  by_cases h : t.id ≥ n
  · rw [if_pos h, wrap_int_of_range _ (by simp only [INT_MIN]; omega)
      (by simp only [INT_MAX]; omega)]
    omega
  · rw [if_neg h]
    omega

theorem foldl_bump_eq (recs : List Task) (n : Int)
    (h : ∀ t ∈ recs, INT_MIN ≤ t.id ∧ t.id < INT_MAX) :
    recs.foldl bump n = recs.foldl (fun m t => max m (t.id + 1)) n := by
  induction recs generalizing n with
  | nil => rfl
  | cons t ts ih =>
    simp only [List.foldl_cons]
    rw [bump_eq_max n t (h t (by simp)).1 (h t (by simp)).2,
      ih _ (fun u hu => h u (by simp [hu]))]

theorem foldl_max_spec (recs : List Task) (n : Int) :
    n ≤ recs.foldl (fun m t => max m (t.id + 1)) n
      ∧ (∀ t ∈ recs, t.id < recs.foldl (fun m t => max m (t.id + 1)) n)
      ∧ (recs.foldl (fun m t => max m (t.id + 1)) n = n
          ∨ ∃ t ∈ recs, recs.foldl (fun m t => max m (t.id + 1)) n = t.id + 1) := by
  induction recs generalizing n with
  | nil => simp
  | cons t ts ih =>
    simp only [List.foldl_cons]
    obtain ⟨h1, h2, h3⟩ := ih (max n (t.id + 1))
    refine ⟨by omega, ?_, ?_⟩
    · intro u hu
      rcases List.mem_cons.1 hu with rfl | hu
      · omega
      · exact h2 u hu
    · rcases h3 with h3 | ⟨u, hu, h3⟩
      · rcases le_total n (t.id + 1) with hle | hle
        · right
          exact ⟨t, by simp, by rw [h3, max_eq_right hle]⟩
        · left
          rw [h3, max_eq_left hle]
      · right
        exact ⟨u, by simp [hu], h3⟩

theorem load_tasks_next_id_spec (w : World) (h : ∀ t ∈ file_records w.file, t.id < INT_MAX) :
    (load_tasks w).next_id = (file_records w.file).foldl (fun m t => max m (t.id + 1)) w.next_id
      ∧ w.next_id ≤ (load_tasks w).next_id
      ∧ (∀ t ∈ (load_tasks w).tasks, t.id < (load_tasks w).next_id)
      ∧ ((load_tasks w).next_id = w.next_id
          ∨ ∃ t ∈ (load_tasks w).tasks, (load_tasks w).next_id = t.id + 1) := by
  have e : (load_tasks w).next_id
      = (file_records w.file).foldl (fun m t => max m (t.id + 1)) w.next_id := by
    rw [load_tasks_next_id]
    exact foldl_bump_eq _ _ (fun t ht => ⟨(file_records_id_range _ t ht).1, h t ht⟩)
  obtain ⟨h1, h2, h3⟩ := foldl_max_spec (file_records w.file) w.next_id
  rw [load_tasks_tasks, e]
  exact ⟨rfl, h1, h2, h3⟩

/-- C9 (counterexample): after one add (the file out of reach) the counter is 2; a load with
the backing file missing loads no record and leaves the counter at 2, not at 1. -/
theorem load_tasks_keeps_counter :
    file_records (run (World.init none) [Cmd.add ['a'] [] ['t'] false]).file = []
      ∧ (run (World.init none) [Cmd.add ['a'] [] ['t'] false, Cmd.load]).tasks = []
      ∧ (run (World.init none) [Cmd.add ['a'] [] ['t'] false, Cmd.load]).next_id = 2
      ∧ (run (World.init none) [Cmd.add ['a'] [] ['t'] false, Cmd.load]).next_id ≠ 1 := by
  decide

/-- C9 (amended): `load_tasks` never lowers the counter. For every prior state and every
backing file whose loaded ids are all below `INT_MAX`, the counter after the load is the
largest of its value before the load and of `id + 1` over the loaded records: it is at least
the old value, above every loaded id, and equal to the old value or to `id + 1` of a loaded
record. It is the old value when no record is loaded, also when the file is missing. -/
theorem load_tasks_counter (w : World) (h : ∀ t ∈ file_records w.file, t.id < INT_MAX) :
    (load_tasks w).next_id = (file_records w.file).foldl (fun m t => max m (t.id + 1)) w.next_id
      ∧ w.next_id ≤ (load_tasks w).next_id
      ∧ (∀ t ∈ (load_tasks w).tasks, t.id < (load_tasks w).next_id)
      ∧ ((load_tasks w).next_id = w.next_id
          ∨ ∃ t ∈ (load_tasks w).tasks, (load_tasks w).next_id = t.id + 1)
      ∧ ((load_tasks w).tasks = [] → (load_tasks w).next_id = w.next_id)
      ∧ (w.file = none → (load_tasks w).next_id = w.next_id) := by
  obtain ⟨h1, h2, h3, h4⟩ := load_tasks_next_id_spec w h
  refine ⟨h1, h2, h3, h4, ?_, ?_⟩
  · intro h0
    rw [load_tasks_tasks] at h0
    rw [h1, h0]; rfl
  · intro h0
    rw [h1, h0]; rfl

/-- C9 (witness): with the counter at 7, loading the file `3,a,b,0,t` / `9,c,d,1,t` sets the
counter to 10, and loading it with the counter at 20 leaves 20. -/
theorem load_tasks_counter_witness :
    (load_tasks ⟨[], 7, some ['3', ',', 'a', ',', 'b', ',', '0', ',', 't', '\n',
        '9', ',', 'c', ',', 'd', ',', '1', ',', 't', '\n']⟩).next_id = 10
      ∧ (load_tasks ⟨[], 20, some ['3', ',', 'a', ',', 'b', ',', '0', ',', 't', '\n',
        '9', ',', 'c', ',', 'd', ',', '1', ',', 't', '\n']⟩).next_id = 20 :=
  ⟨((load_tasks_counter ⟨[], 7, some ['3', ',', 'a', ',', 'b', ',', '0', ',', 't', '\n',
        '9', ',', 'c', ',', 'd', ',', '1', ',', 't', '\n']⟩ (by decide)).1).trans (by decide),
    by decide⟩

/-! ## The commands on the collection and the counter -/

theorem save_tasks_tasks (cw : Bool) (w : World) : (save_tasks cw w).tasks = w.tasks := by
  unfold save_tasks; split <;> rfl

theorem save_tasks_next_id (cw : Bool) (w : World) : (save_tasks cw w).next_id = w.next_id := by
  unfold save_tasks; split <;> rfl

theorem add_task_tasks (title cat now : Str) (cw : Bool) (w : World) (h : title ≠ []) :
    (add_task title cat now cw w).tasks = w.tasks ++ [Task.mk w.next_id title cat false now] := by
  simp [add_task, h, save_tasks_tasks]

theorem add_task_next_id (title cat now : Str) (cw : Bool) (w : World) (h : title ≠ []) :
    (add_task title cat now cw w).next_id = wrap_int (w.next_id + 1) := by
  simp [add_task, h, save_tasks_next_id]

theorem add_task_empty (cat now : Str) (cw : Bool) (w : World) :
    add_task [] cat now cw w = w := by
  simp [add_task]

theorem toggle_first_ids (id : Int) (ts r : List Task) (h : toggle_first id ts = some r) :
    r.map Task.id = ts.map Task.id := by
  induction ts generalizing r with
  | nil => simp [toggle_first] at h
  | cons t ts ih =>
    unfold toggle_first at h
    by_cases hid : t.id = id
    · rw [if_pos hid] at h
      rw [← Option.some.inj h]
      rfl
    · rw [if_neg hid] at h
      cases hr : toggle_first id ts with
      | none => rw [hr] at h; simp at h
      | some r2 =>
        rw [hr] at h
        rw [← Option.some.inj h]
        simp [ih r2 hr]

theorem mark_complete_ids (id : Int) (cw : Bool) (w : World) :
    (mark_complete id cw w).tasks.map Task.id = w.tasks.map Task.id := by
  unfold mark_complete
  cases h : toggle_first id w.tasks with
  | none => rfl
  | some r => simp [save_tasks_tasks, toggle_first_ids id w.tasks r h]

theorem mark_complete_next_id (id : Int) (cw : Bool) (w : World) :
    (mark_complete id cw w).next_id = w.next_id := by
  unfold mark_complete
  cases toggle_first id w.tasks <;> simp [save_tasks_next_id]

theorem delete_task_tasks (id : Int) (cw : Bool) (w : World) :
    (delete_task id cw w).tasks = w.tasks.filter (fun t => !decide (t.id = id)) := by
  unfold delete_task
  simp only
  split
  · simp [save_tasks_tasks]
  · next h =>
    rw [not_not] at h
    exact (List.filter_eq_self.2 (List.filter_length_eq_length.1 h)).symm

theorem delete_task_next_id (id : Int) (cw : Bool) (w : World) :
    (delete_task id cw w).next_id = w.next_id := by
  unfold delete_task
  simp only
  split <;> simp [save_tasks_next_id]

theorem wrap_int_succ (n : Int) (h1 : 1 ≤ n) (h2 : n < INT_MAX) : wrap_int (n + 1) = n + 1 := by
  simp only [INT_MAX] at h2
  exact wrap_int_of_range _ (by simp only [INT_MIN]; omega) (by simp only [INT_MAX]; omega)

theorem no_overflow_load (w : World) (h : no_overflow w Cmd.load = true) :
    ∀ t ∈ file_records w.file, t.id < INT_MAX := by
  intro t ht
  simp only [no_overflow, List.all_eq_true, decide_eq_true_eq] at h
  exact h t ht

theorem step_next_id_le (w : World) (c : Cmd) (h1 : 1 ≤ w.next_id)
    (h : no_overflow w c = true) : w.next_id ≤ (step w c).next_id := by
  cases c with
  | add title cat now cw =>
    by_cases ht : title = []
    · subst ht; simp [step, add_task_empty]
    · have hlt : w.next_id < INT_MAX := by simpa [no_overflow, ht] using h
      simp only [step, add_task_next_id _ _ _ _ _ ht, wrap_int_succ _ h1 hlt]
      omega
  | toggle id cw => simp [step, mark_complete_next_id]
  | delete id cw => simp [step, delete_task_next_id]
  | save cw => simp [step, save_tasks_next_id]
  | load => exact (load_tasks_next_id_spec w (no_overflow_load w h)).2.1
  | set_file f => simp [step]

theorem step_inv (w : World) (c : Cmd) (hw : StoreInv w) (h1 : no_overflow w c = true)
    (h2 : distinct_file w c = true) : StoreInv (step w c) := by
  obtain ⟨hn, hd, hlt⟩ := hw
  cases c with
  | add title cat now cw =>
    by_cases ht : title = []
    · subst ht; simpa [step, add_task_empty] using ⟨hn, hd, hlt⟩
    · have hmax : w.next_id < INT_MAX := by simpa [no_overflow, ht] using h1
      simp only [StoreInv, step, add_task_next_id _ _ _ _ _ ht, add_task_tasks _ _ _ _ _ ht,
        wrap_int_succ _ hn hmax]
      refine ⟨by omega, ?_, ?_⟩
      · rw [List.map_append, List.nodup_append]
        refine ⟨hd, by simp, ?_⟩
        intro a ha hb
        obtain ⟨t, ht1, rfl⟩ := List.mem_map.1 ha
        simp only [List.map_cons, List.map_nil, List.mem_singleton] at hb
        have := hlt t ht1
        omega
      · intro t ht1
        rcases List.mem_append.1 ht1 with ht1 | ht1
        · have := hlt t ht1
          omega
        · simp only [List.mem_singleton] at ht1
          subst ht1
          simp
  | toggle id cw =>
    refine ⟨by simpa [step, mark_complete_next_id] using hn, ?_, ?_⟩
    · simpa [step, mark_complete_ids] using hd
    · intro t ht
      have hm : t.id ∈ (mark_complete id cw w).tasks.map Task.id := List.mem_map.2 ⟨t, ht, rfl⟩
      rw [mark_complete_ids] at hm
      obtain ⟨u, hu, e⟩ := List.mem_map.1 hm
      simp only [step, mark_complete_next_id]
      rw [← e]
      exact hlt u hu
  | delete id cw =>
    refine ⟨by simpa [step, delete_task_next_id] using hn, ?_, ?_⟩
    · simp only [step, delete_task_tasks]
      exact hd.sublist ((List.filter_sublist _).map Task.id)
    · intro t ht
      simp only [step, delete_task_tasks, delete_task_next_id] at ht ⊢
      exact hlt t (List.mem_of_mem_filter ht)
  | save cw => simpa [StoreInv, step, save_tasks_tasks, save_tasks_next_id] using ⟨hn, hd, hlt⟩
  | load =>
    obtain ⟨_, hle, hlt2, _⟩ := load_tasks_next_id_spec w (no_overflow_load w h1)
    refine ⟨le_trans hn hle, ?_, hlt2⟩
    simp only [step, load_tasks_tasks]
    simpa [distinct_file] using h2
  | set_file f => simpa [StoreInv, step] using ⟨hn, hd, hlt⟩

theorem run_inv (cmds : List Cmd) (w : World) (hw : StoreInv w)
    (h1 : run_all no_overflow w cmds = true) (h2 : run_all distinct_file w cmds = true) :
    StoreInv (run w cmds) := by
  induction cmds generalizing w with
  | nil => exact hw
  | cons c cs ih =>
    simp only [run_all, Bool.and_eq_true] at h1 h2
    exact ih (step w c) (step_inv w c hw h1.1 h2.1) h1.2 h2.2

/-! ## Uniqueness and monotonicity of ids -/

/-- C3 (counterexample): from the initial state, one load of a file with the two lines
`1,a,b,0,t` and `1,c,d,0,t` gives a collection with two records of id 1. -/
theorem load_tasks_duplicate_ids :
    ((run (World.init (some ['1', ',', 'a', ',', 'b', ',', '0', ',', 't', '\n',
        '1', ',', 'c', ',', 'd', ',', '0', ',', 't', '\n'])) [Cmd.load]).tasks.map Task.id)
        = [1, 1]
      ∧ ¬ ((run (World.init (some ['1', ',', 'a', ',', 'b', ',', '0', ',', 't', '\n',
        '1', ',', 'c', ',', 'd', ',', '0', ',', 't', '\n'])) [Cmd.load]).tasks.map
          Task.id).Nodup := by
  decide

/-- C3 (amended): in every state reached from the initial state (empty collection,
counter 1, any backing file) by a sequence of adds, toggles, deletes, saves, loads and
outside changes of the file, in which every load reads a file whose decoded ids are pairwise
distinct and no increment of the counter overflows, no two records of the collection have
the same id. -/
theorem ids_unique_when_loads_distinct (file : Option Str) (cmds : List Cmd)
    (h1 : run_all no_overflow (World.init file) cmds = true)
    (h2 : run_all distinct_file (World.init file) cmds = true) :
    ((run (World.init file) cmds).tasks.map Task.id).Nodup :=
  (run_inv cmds (World.init file) ⟨by simp [World.init], by simp [World.init],
    by simp [World.init]⟩ h1 h2).2.1

/-- C3 (witness): load of a two-record file, two adds, a toggle, a delete, a save and a
second load. -/
theorem ids_unique_when_loads_distinct_witness :
    ((run (World.init (some ['4', ',', 'a', ',', 'b', ',', '0', ',', 't', '\n',
        '2', ',', 'c', ',', 'd', ',', '1', ',', 't', '\n']))
      [Cmd.load, Cmd.add ['x'] [] ['t'] true, Cmd.add ['y'] ['w'] ['t'] false, Cmd.toggle 4 true,
        Cmd.delete 2 true, Cmd.save true, Cmd.load]).tasks.map Task.id).Nodup :=
  ids_unique_when_loads_distinct _ _ (by decide) (by decide)

/-- Why the amended C3 asks for no overflow: a load of the two lines `-2147483648,a,b,0,t`
and `2147483647,c,d,0,t` (distinct ids) wraps the counter to `INT_MIN`, and the next add
gives out the id `-2147483648` a second time. -/
theorem ids_collide_after_overflow :
    run_all distinct_file (World.init (some ['-', '2', '1', '4', '7', '4', '8', '3', '6', '4',
        '8', ',', 'a', ',', 'b', ',', '0', ',', 't', '\n', '2', '1', '4', '7', '4', '8', '3', '6',
        '4', '7', ',', 'c', ',', 'd', ',', '0', ',', 't', '\n']))
        [Cmd.load, Cmd.add ['x'] [] ['t'] false] = true
      ∧ (run (World.init (some ['-', '2', '1', '4', '7', '4', '8', '3', '6', '4',
        '8', ',', 'a', ',', 'b', ',', '0', ',', 't', '\n', '2', '1', '4', '7', '4', '8', '3', '6',
        '4', '7', ',', 'c', ',', 'd', ',', '0', ',', 't', '\n']))
        [Cmd.load, Cmd.add ['x'] [] ['t'] false]).tasks.map Task.id
          = [-2147483648, 2147483647, -2147483648] := by
  decide

theorem run_append (w : World) (a b : List Cmd) : run w (a ++ b) = run (run w a) b := by
  simp [run, List.foldl_append]

theorem run_cons (w : World) (c : Cmd) (cs : List Cmd) : run w (c :: cs) = run (step w c) cs :=
  rfl

theorem run_all_append (P : World → Cmd → Bool) (a b : List Cmd) (w : World) :
    run_all P w (a ++ b) = (run_all P w a && run_all P (run w a) b) := by
  induction a generalizing w with
  | nil => simp [run_all, run]
  | cons c cs ih => simp [run_all, run_cons, ih, Bool.and_assoc]

theorem created_ids_head (w : World) (c : Cmd) (h1 : 1 ≤ w.next_id)
    (h : no_overflow w c = true) :
    ∀ i ∈ (match c with
        | .add _ _ _ _ => ((step w c).tasks.drop w.tasks.length).map Task.id
        | _ => []), w.next_id ≤ i ∧ i < (step w c).next_id := by
  cases c with
  | add title cat now cw =>
    by_cases ht : title = []
    · subst ht; simp [step, add_task_empty]
    · have hlt : w.next_id < INT_MAX := by simpa [no_overflow, ht] using h
      intro i hi
      simp only [step, add_task_tasks _ _ _ _ _ ht, List.drop_left, List.map_cons, List.map_nil,
        List.mem_singleton] at hi
      simp only [step, add_task_next_id _ _ _ _ _ ht, wrap_int_succ _ h1 hlt]
      omega
  | toggle id cw => simp
  | delete id cw => simp
  | save cw => simp
  | load => simp
  | set_file f => simp

theorem created_ids_spec (cmds : List Cmd) (w : World) (h1 : 1 ≤ w.next_id)
    (h : run_all no_overflow w cmds = true) :
    w.next_id ≤ (run w cmds).next_id
      ∧ (∀ i ∈ created_ids w cmds, w.next_id ≤ i ∧ i < (run w cmds).next_id)
      ∧ (created_ids w cmds).Pairwise (fun a b => a < b) := by
  induction cmds generalizing w with
  | nil => simp [run, created_ids]
  | cons c cs ih =>
    simp only [run_all, Bool.and_eq_true] at h
    have hstep := step_next_id_le w c h1 h.1
    obtain ⟨ha, hb, hc⟩ := ih (step w c) (le_trans h1 hstep) h.2
    have hhead := created_ids_head w c h1 h.1
    rw [run_cons]
    refine ⟨le_trans hstep ha, ?_, ?_⟩
    · intro i hi
      simp only [created_ids] at hi
      rcases List.mem_append.1 hi with hi | hi
      · exact ⟨(hhead i hi).1, lt_of_lt_of_le (hhead i hi).2 ha⟩
      · exact ⟨le_trans hstep (hb i hi).1, (hb i hi).2⟩
    · simp only [created_ids]
      rw [List.pairwise_append]
      refine ⟨?_, hc, ?_⟩
      · cases c with
        | add title cat now cw =>
          by_cases ht : title = []
          · subst ht; simp [step, add_task_empty]
          · simp [step, add_task_tasks _ _ _ _ _ ht]
        | toggle id cw => simp
        | delete id cw => simp
        | save cw => simp
        | load => simp
        | set_file f => simp
      · intro a ha2 b hb2
        exact lt_of_lt_of_le (hhead a ha2).2 (hb b hb2).1

/-- C4: in every session (from the initial state over any backing file, by any sequence of
adds, toggles, deletes, saves, loads and outside changes of the file) in which every id
given out or loaded is below `INT_MAX`, the ids `add_task` gives out are strictly
increasing: each is greater than every id given out before; each is greater than every id
in the collection right after any earlier load, the most recent one included; and so the
ids given out are pairwise distinct. -/
theorem created_ids_strictly_increasing (file : Option Str) (cmds : List Cmd)
    (h : run_all no_overflow (World.init file) cmds = true) :
    (created_ids (World.init file) cmds).Pairwise (fun a b => a < b)
      ∧ (∀ pre post : List Cmd, cmds = pre ++ Cmd.load :: post →
          ∀ t ∈ (run (World.init file) (pre ++ [Cmd.load])).tasks,
            ∀ i ∈ created_ids (run (World.init file) (pre ++ [Cmd.load])) post, t.id < i)
      ∧ (created_ids (World.init file) cmds).Nodup := by
  have h0 : (1 : Int) ≤ (World.init file).next_id := by simp [World.init]
  have hp := (created_ids_spec cmds (World.init file) h0 h).2.2
  refine ⟨hp, ?_, hp.imp (fun hab => ne_of_lt hab)⟩
  intro pre post hcmds t ht i hi
  subst hcmds
  have hsplit : pre ++ Cmd.load :: post = (pre ++ [Cmd.load]) ++ post := by simp
  rw [hsplit, run_all_append, run_all_append, Bool.and_eq_true, Bool.and_eq_true] at h
  obtain ⟨⟨hpre, hload⟩, hpost⟩ := h
  have hpre1 := (created_ids_spec pre (World.init file) h0 hpre).1
  simp only [run_all, Bool.and_true] at hload
  rw [run_append] at ht hi hpost
  simp only [run, List.foldl_cons, List.foldl_nil, step] at ht hi hpost
  obtain ⟨_, hle, hlt, _⟩ :=
    load_tasks_next_id_spec (List.foldl step (World.init file) pre) (no_overflow_load _ hload)
  have h1 : (1 : Int) ≤ (load_tasks (List.foldl step (World.init file) pre)).next_id :=
    le_trans (le_trans h0 hpre1) hle
  have := ((created_ids_spec post _ h1 hpost).2.1 i hi).1
  exact lt_of_lt_of_le (hlt t ht) this

/-- C4 (witness): an add, a load of a file with the ids 4 and 2, two adds around a delete
and a toggle: the ids given out are 1, 5 and 6. -/
theorem created_ids_strictly_increasing_witness :
    created_ids (World.init (some ['4', ',', 'a', ',', 'b', ',', '0', ',', 't', '\n',
        '2', ',', 'c', ',', 'd', ',', '1', ',', 't', '\n']))
      [Cmd.add ['x'] [] ['t'] false, Cmd.load, Cmd.add ['y'] [] ['t'] false, Cmd.delete 5 false,
        Cmd.toggle 4 false, Cmd.add ['z'] [] ['t'] false] = [1, 5, 6]
      ∧ (created_ids (World.init (some ['4', ',', 'a', ',', 'b', ',', '0', ',', 't', '\n',
        '2', ',', 'c', ',', 'd', ',', '1', ',', 't', '\n']))
      [Cmd.add ['x'] [] ['t'] false, Cmd.load, Cmd.add ['y'] [] ['t'] false, Cmd.delete 5 false,
        Cmd.toggle 4 false, Cmd.add ['z'] [] ['t'] false]).Pairwise (fun a b => a < b) :=
  ⟨by decide, (created_ids_strictly_increasing _ _ (by decide)).1⟩

/-! ## add_task -/

theorem save_tasks_file_true (w : World) : (save_tasks true w).file = some (save_text w.tasks) := by
  simp [save_tasks]

theorem save_tasks_false (w : World) : save_tasks false w = w := by
  simp [save_tasks]

/-- C11 (counterexample): a load of the line `2147483646,a,b,0,t` leaves the counter at
`INT_MAX`; the add that follows gives out the id `2147483647` and the counter, an `int`,
does not become `2147483648`. -/
theorem add_task_counter_at_int_max :
    (run (World.init (some ['2', '1', '4', '7', '4', '8', '3', '6', '4', '6', ',', 'a', ',', 'b',
        ',', '0', ',', 't', '\n'])) [Cmd.load]).next_id = 2147483647
      ∧ (run (World.init (some ['2', '1', '4', '7', '4', '8', '3', '6', '4', '6', ',', 'a', ',',
        'b', ',', '0', ',', 't', '\n'])) [Cmd.load, Cmd.add ['x'] [] ['t'] false]).next_id
          = -2147483648
      ∧ (run (World.init (some ['2', '1', '4', '7', '4', '8', '3', '6', '4', '6', ',', 'a', ',',
        'b', ',', '0', ',', 't', '\n'])) [Cmd.load, Cmd.add ['x'] [] ['t'] false]).next_id
          ≠ (run (World.init (some ['2', '1', '4', '7', '4', '8', '3', '6', '4', '6', ',', 'a',
            ',', 'b', ',', '0', ',', 't', '\n'])) [Cmd.load]).next_id + 1 := by
  decide

/-- C11 (amended): for every state whose counter is an `int` below `INT_MAX`, every title
that is not empty and any category, `add_task` keeps the existing records as they are and
in order, appends one record at the end with the id equal to the counter before the call,
the given title and category as they are, `done = false` and the given time string, raises
the counter by exactly one and reports the new id; a successful save writes the new
collection. -/
theorem add_task_postcondition (title cat now : Str) (cw : Bool) (w : World)
    (ht : title ≠ []) (h1 : INT_MIN ≤ w.next_id) (h2 : w.next_id < INT_MAX) :
    (add_task title cat now cw w).tasks = w.tasks ++ [Task.mk w.next_id title cat false now]
      ∧ (add_task title cat now cw w).next_id = w.next_id + 1
      ∧ add_task_report title w = Report.task_added w.next_id
      ∧ (add_task title cat now true w).file
          = some (save_text (w.tasks ++ [Task.mk w.next_id title cat false now])) := by
  refine ⟨add_task_tasks _ _ _ _ _ ht, ?_, by simp [add_task_report, ht], ?_⟩
  · rw [add_task_next_id _ _ _ _ _ ht]
    simp only [INT_MIN, INT_MAX] at h1 h2
    exact wrap_int_of_range _ (by simp only [INT_MIN]; omega) (by simp only [INT_MAX]; omega)
  · simp [add_task, ht, save_tasks]

/-- C11 (witness): adding `x,y` with category `w` to a one-record store with counter 5. -/
theorem add_task_postcondition_witness :
    (add_task ['x', ',', 'y'] ['w'] ['t'] true ⟨[Task.mk 4 ['a'] [] true ['t']], 5, none⟩).tasks
        = [Task.mk 4 ['a'] [] true ['t'], Task.mk 5 ['x', ',', 'y'] ['w'] false ['t']]
      ∧ (add_task ['x', ',', 'y'] ['w'] ['t'] true
          ⟨[Task.mk 4 ['a'] [] true ['t']], 5, none⟩).next_id = 6 :=
  ⟨(add_task_postcondition ['x', ',', 'y'] ['w'] ['t'] true
      ⟨[Task.mk 4 ['a'] [] true ['t']], 5, none⟩ (by decide) (by decide) (by decide)).1,
   (add_task_postcondition ['x', ',', 'y'] ['w'] ['t'] true
      ⟨[Task.mk 4 ['a'] [] true ['t']], 5, none⟩ (by decide) (by decide) (by decide)).2.1⟩

/-- C12: `add_task` reports the empty-title failure exactly when the title is the empty
string; then the collection, the counter and the backing file are all as before. Any other
title, one of spaces only included, is accepted: a record with that title is appended. -/
theorem add_task_rejects_empty_title (title cat now : Str) (cw : Bool) (w : World) :
    (add_task_report title w = Report.title_empty ↔ title = [])
      ∧ (title = [] → add_task title cat now cw w = w)
      ∧ (title ≠ [] →
          (add_task title cat now cw w).tasks = w.tasks ++ [Task.mk w.next_id title cat false now])
      ∧ add_task_report [' ', ' '] w = Report.task_added w.next_id
      ∧ (add_task [' ', ' '] cat now cw w).tasks
          = w.tasks ++ [Task.mk w.next_id [' ', ' '] cat false now] := by
  refine ⟨?_, ?_, fun h => add_task_tasks _ _ _ _ _ h, by simp [add_task_report],
    add_task_tasks _ _ _ _ _ (by simp)⟩
  · unfold add_task_report
    by_cases h : title = [] <;> simp [h]
  · rintro rfl
    exact add_task_empty _ _ _ _

/-! ## delete_task -/

theorem filter_length_ne_iff (id : Int) (ts : List Task) :
    (ts.filter (fun t => !decide (t.id = id))).length ≠ ts.length ↔ ∃ t ∈ ts, t.id = id := by
  rw [Ne, List.filter_length_eq_length]
  constructor
  · intro h
    by_contra hn
    apply h
    intro t ht
    have : t.id ≠ id := fun e => hn ⟨t, ht, e⟩
    simp [this]
  · rintro ⟨t, ht, e⟩ h
    have := h t ht
    simp [e] at this

theorem delete_task_report_deleted (id : Int) (w : World) (h : ∃ t ∈ w.tasks, t.id = id) :
    delete_task_report id w = Report.deleted id := by
  unfold delete_task_report
  simp only
  rw [if_pos ((filter_length_ne_iff id w.tasks).2 h)]

theorem delete_task_absent (id : Int) (cw : Bool) (w : World) (h : ∀ t ∈ w.tasks, t.id ≠ id) :
    delete_task_report id w = Report.not_found ∧ delete_task id cw w = w := by
  have hn : ¬ (w.tasks.filter (fun t => !decide (t.id = id))).length ≠ w.tasks.length := by
    rw [filter_length_ne_iff]
    rintro ⟨t, ht, e⟩
    exact h t ht e
  unfold delete_task_report delete_task
  simp only
  rw [if_neg hn, if_neg hn]
  exact ⟨rfl, rfl⟩

theorem delete_task_no_id (id : Int) (cw : Bool) (w : World) :
    ∀ t ∈ (delete_task id cw w).tasks, t.id ≠ id := by
  intro t ht
  rw [delete_task_tasks] at ht
  simpa using (List.mem_filter.1 ht).2

/-- C13: if some record has the id, `delete_task` reports the deletion and the collection
becomes the original one without the records of that id, the others kept as they are and
in their order (a successful save writes it); if no record has the id, it reports not-found
and the collection, the counter and the backing file are as before. The counter is never
changed. -/
theorem delete_task_semantics (id : Int) (cw : Bool) (w : World) :
    ((∃ t ∈ w.tasks, t.id = id) →
        delete_task_report id w = Report.deleted id
          ∧ (delete_task id cw w).tasks = w.tasks.filter (fun t => !decide (t.id = id))
          ∧ (delete_task id true w).file
              = some (save_text (w.tasks.filter (fun t => !decide (t.id = id)))))
      ∧ ((delete_task id cw w).tasks.Sublist w.tasks
          ∧ ∀ t, t ∈ (delete_task id cw w).tasks ↔ t ∈ w.tasks ∧ t.id ≠ id)
      ∧ (delete_task id cw w).next_id = w.next_id
      ∧ ((∀ t ∈ w.tasks, t.id ≠ id) →
          delete_task_report id w = Report.not_found ∧ delete_task id cw w = w) := by
  refine ⟨?_, ⟨?_, ?_⟩, delete_task_next_id id cw w, delete_task_absent id cw w⟩
  · intro h
    refine ⟨delete_task_report_deleted id w h, delete_task_tasks id cw w, ?_⟩
    unfold delete_task
    simp only
    rw [if_pos ((filter_length_ne_iff id w.tasks).2 h)]
    simp [save_tasks]
  · rw [delete_task_tasks]
    exact List.filter_sublist _
  · intro t
    rw [delete_task_tasks]
    simp [List.mem_filter]

/-! ## mark_complete -/

theorem toggle_first_absent (id : Int) (ts : List Task) (h : ∀ t ∈ ts, t.id ≠ id) :
    toggle_first id ts = none ∧ mark_complete_report id ts = Report.not_found := by
  induction ts with
  | nil => exact ⟨rfl, rfl⟩
  | cons t ts ih =>
    have ht : t.id ≠ id := h t (by simp)
    obtain ⟨h1, h2⟩ := ih (fun u hu => h u (by simp [hu]))
    simp [toggle_first, mark_complete_report, ht, h1, h2]

theorem mark_complete_absent (id : Int) (cw : Bool) (w : World) (h : ∀ t ∈ w.tasks, t.id ≠ id) :
    mark_complete_report id w.tasks = Report.not_found ∧ mark_complete id cw w = w := by
  obtain ⟨h1, h2⟩ := toggle_first_absent id w.tasks h
  refine ⟨h2, ?_⟩
  unfold mark_complete
  rw [h1]

theorem toggle_first_split (id : Int) (pre post : List Task) (t : Task)
    (hpre : ∀ u ∈ pre, u.id ≠ id) (ht : t.id = id) :
    toggle_first id (pre ++ t :: post) = some (pre ++ { t with done := !t.done } :: post)
      ∧ mark_complete_report id (pre ++ t :: post) = Report.marked id (!t.done) := by
  induction pre with
  | nil => simp [toggle_first, mark_complete_report, ht]
  | cons u pre ih =>
    have hu : u.id ≠ id := hpre u (by simp)
    obtain ⟨h1, h2⟩ := ih (fun v hv => hpre v (by simp [hv]))
    simp [toggle_first, mark_complete_report, hu, h1, h2]

theorem exists_first_with_id (id : Int) (ts : List Task) (h : ∃ t ∈ ts, t.id = id) :
    ∃ pre t post, ts = pre ++ t :: post ∧ (∀ u ∈ pre, u.id ≠ id) ∧ t.id = id := by
  induction ts with
  | nil => simp at h
  | cons a ts ih =>
    by_cases ha : a.id = id
    · exact ⟨[], a, ts, rfl, by simp, ha⟩
    · obtain ⟨t, ht, e⟩ := h
      have ht2 : t ∈ ts := by
        rcases List.mem_cons.1 ht with rfl | ht
        · exact absurd e ha
        · exact ht
      obtain ⟨pre, t2, post, hs, hp, he⟩ := ih ⟨t, ht2, e⟩
      refine ⟨a :: pre, t2, post, by simp [hs], ?_, he⟩
      intro u hu
      rcases List.mem_cons.1 hu with rfl | hu
      · exact ha
      · exact hp u hu

theorem mark_complete_tasks_of_some (id : Int) (cw : Bool) (w : World) (r : List Task)
    (h : toggle_first id w.tasks = some r) : (mark_complete id cw w).tasks = r := by
  unfold mark_complete
  rw [h]
  exact save_tasks_tasks _ _

/-- C14: after `delete_task id` has reported a deletion, a following `mark_complete id`
reports not-found and a second `delete_task id` reports not-found, and each of them leaves
the collection, the counter and the backing file as they are. -/
theorem delete_task_final (id : Int) (c1 c2 c3 : Bool) (w : World)
    (_h : delete_task_report id w = Report.deleted id) :
    mark_complete_report id (delete_task id c1 w).tasks = Report.not_found
      ∧ mark_complete id c2 (delete_task id c1 w) = delete_task id c1 w
      ∧ delete_task_report id (delete_task id c1 w) = Report.not_found
      ∧ delete_task id c3 (delete_task id c1 w) = delete_task id c1 w := by
  have hno := delete_task_no_id id c1 w
  exact ⟨(mark_complete_absent id c2 _ hno).1, (mark_complete_absent id c2 _ hno).2,
    (delete_task_absent id c3 _ hno).1, (delete_task_absent id c3 _ hno).2⟩

/-- C14 (witness): after the adds of `Buy milk` and `Write report`, the toggle of 1 and the
delete of 2, the toggle of 2 reports not-found. -/
theorem delete_task_final_witness :
    (run (World.init none) [Cmd.add ['B', 'u', 'y', ' ', 'm', 'i', 'l', 'k'] [] ['t'] true,
        Cmd.add ['W', 'r', 'i', 't', 'e', ' ', 'r', 'e', 'p', 'o', 'r', 't'] ['w', 'o', 'r', 'k']
          ['t'] true, Cmd.toggle 1 true, Cmd.delete 2 true]).tasks
        = [Task.mk 1 ['B', 'u', 'y', ' ', 'm', 'i', 'l', 'k'] [] true ['t']]
      ∧ mark_complete_report 2 (delete_task 2 true
        (run (World.init none) [Cmd.add ['B', 'u', 'y', ' ', 'm', 'i', 'l', 'k'] [] ['t'] true,
          Cmd.add ['W', 'r', 'i', 't', 'e', ' ', 'r', 'e', 'p', 'o', 'r', 't']
            ['w', 'o', 'r', 'k'] ['t'] true, Cmd.toggle 1 true])).tasks = Report.not_found :=
  ⟨by decide,
    (delete_task_final 2 true true true
      (run (World.init none) [Cmd.add ['B', 'u', 'y', ' ', 'm', 'i', 'l', 'k'] [] ['t'] true,
        Cmd.add ['W', 'r', 'i', 't', 'e', ' ', 'r', 'e', 'p', 'o', 'r', 't'] ['w', 'o', 'r', 'k']
          ['t'] true, Cmd.toggle 1 true]) (by decide)).1⟩

/-- C15: for every id that some record has, `mark_complete id` flips the `done` flag of the
first record with that id and of no other record, and reports the new flag; a second
`mark_complete id` gives back the collection exactly as it was. -/
theorem mark_complete_involution (id : Int) (c1 c2 : Bool) (w : World)
    (h : ∃ t ∈ w.tasks, t.id = id) :
    (mark_complete id c2 (mark_complete id c1 w)).tasks = w.tasks
      ∧ ∃ pre t post, w.tasks = pre ++ t :: post ∧ (∀ u ∈ pre, u.id ≠ id) ∧ t.id = id
          ∧ (mark_complete id c1 w).tasks = pre ++ Task.mk t.id t.title t.category (!t.done)
              t.created_at :: post
          ∧ mark_complete_report id w.tasks = Report.marked id (!t.done) := by
  obtain ⟨pre, t, post, hs, hpre, ht⟩ := exists_first_with_id id w.tasks h
  have h1 := toggle_first_split id pre post t hpre ht
  rw [← hs] at h1
  have e1 := mark_complete_tasks_of_some id c1 w _ h1.1
  have h2 := toggle_first_split id pre post { t with done := !t.done } hpre ht
  rw [← e1] at h2
  have e2 := mark_complete_tasks_of_some id c2 (mark_complete id c1 w) _ h2.1
  refine ⟨?_, pre, t, post, hs, hpre, ht, e1, h1.2⟩
  rw [e2, hs]
  simp

/-- C15 (witness): two toggles of id 2 in a three-record collection. -/
theorem mark_complete_involution_witness :
    (mark_complete 2 true (mark_complete 2 true
        ⟨[Task.mk 1 ['a'] [] false ['t'], Task.mk 2 ['b'] [] true ['t'],
          Task.mk 3 ['c'] [] false ['t']], 4, none⟩)).tasks
      = [Task.mk 1 ['a'] [] false ['t'], Task.mk 2 ['b'] [] true ['t'],
          Task.mk 3 ['c'] [] false ['t']] :=
  (mark_complete_involution 2 true true
    ⟨[Task.mk 1 ['a'] [] false ['t'], Task.mk 2 ['b'] [] true ['t'],
      Task.mk 3 ['c'] [] false ['t']], 4, none⟩ (by decide)).1

theorem toggle_first_frame (id : Int) (ts : List Task) :
    List.Forall₂ (fun t u => u.id = t.id ∧ u.title = t.title ∧ u.category = t.category
        ∧ u.created_at = t.created_at ∧ (t.id ≠ id → u = t))
      ts ((toggle_first id ts).getD ts) := by
  induction ts with
  | nil => exact List.Forall₂.nil
  | cons t ts ih =>
    unfold toggle_first
    by_cases ht : t.id = id
    · rw [if_pos ht]
      refine List.Forall₂.cons ⟨rfl, rfl, rfl, rfl, fun hn => absurd ht hn⟩ ?_
      exact List.forall₂_same.2 (fun x _ => ⟨rfl, rfl, rfl, rfl, fun _ => rfl⟩)
    · rw [if_neg ht]
      cases hr : toggle_first id ts with
      | none =>
        exact List.forall₂_same.2 (fun x _ => ⟨rfl, rfl, rfl, rfl, fun _ => rfl⟩)
      | some r =>
        rw [hr] at ih
        exact List.Forall₂.cons ⟨rfl, rfl, rfl, rfl, fun _ => rfl⟩ ih

theorem mark_complete_tasks_getD (id : Int) (cw : Bool) (w : World) :
    (mark_complete id cw w).tasks = (toggle_first id w.tasks).getD w.tasks := by
  unfold mark_complete
  cases toggle_first id w.tasks with
  | none => rfl
  | some r => exact save_tasks_tasks _ _

/-- C16: `mark_complete id` keeps the number and the order of the records, keeps the id,
title, category and `created_at` of every record, keeps every record with another id as it
is, and keeps the counter; when no record has the id it reports not-found and the
collection, the counter and the backing file are as before. -/
theorem mark_complete_frame (id : Int) (cw : Bool) (w : World) :
    List.Forall₂ (fun t u => u.id = t.id ∧ u.title = t.title ∧ u.category = t.category
        ∧ u.created_at = t.created_at ∧ (t.id ≠ id → u = t))
        w.tasks (mark_complete id cw w).tasks
      ∧ (mark_complete id cw w).tasks.length = w.tasks.length
      ∧ (mark_complete id cw w).next_id = w.next_id
      ∧ ((∀ t ∈ w.tasks, t.id ≠ id) →
          mark_complete_report id w.tasks = Report.not_found ∧ mark_complete id cw w = w) := by
  have hf : List.Forall₂ (fun t u => u.id = t.id ∧ u.title = t.title ∧ u.category = t.category
        ∧ u.created_at = t.created_at ∧ (t.id ≠ id → u = t))
        w.tasks (mark_complete id cw w).tasks := by
    rw [mark_complete_tasks_getD]
    exact toggle_first_frame id w.tasks
  exact ⟨hf, hf.length_eq.symm, mark_complete_next_id id cw w, mark_complete_absent id cw w⟩

/-! ## list_all -/

theorem task_less_total (a b : Task) : task_less b a = false ∨ task_less a b = false := by
  rcases a with ⟨ia, _, _, da, _⟩
  rcases b with ⟨ib, _, _, db, _⟩
  cases da <;> cases db <;> simp [task_less] <;> omega

theorem task_less_trans (a b c : Task) (h1 : task_less b a = false)
    (h2 : task_less c b = false) : task_less c a = false := by
  rcases a with ⟨ia, _, _, da, _⟩
  rcases b with ⟨ib, _, _, db, _⟩
  rcases c with ⟨ic, _, _, dc, _⟩
  cases da <;> cases db <;> cases dc <;> simp [task_less] at h1 h2 ⊢ <;> omega

theorem task_less_false (a b : Task) (h : task_less b a = false) :
    (a.done = true → b.done = true) ∧ (a.done = b.done → a.id ≤ b.id) := by
  rcases a with ⟨ia, _, _, da, _⟩
  rcases b with ⟨ib, _, _, db, _⟩
  cases da <;> cases db <;> simp [task_less] at h ⊢ <;> omega

theorem std_sort_task_less (l : List Task) :
    (std_sort task_less l).Perm l
      ∧ (std_sort task_less l).Pairwise (fun a b => task_less b a = false) := by
  haveI : IsTotal Task (fun a b => task_less b a = false) := ⟨task_less_total⟩
  haveI : IsTrans Task (fun a b => task_less b a = false) :=
    ⟨fun a b c h1 h2 => task_less_trans a b c h1 h2⟩
  exact ⟨List.perm_insertionSort _ l, List.sorted_insertionSort _ l⟩

/-- C17: the rows `list_all` prints are a permutation of the stored collection in which no
completed record comes before a pending one and, among records with the same `done` value,
ids are in ascending order; `list_all` leaves the globals (collection, counter, file) as
they are. The order holds for every sequence that `task_less` leaves sorted, whatever the
sorting algorithm does with equivalent records. -/
theorem list_all_sorted_view (w : World) :
    (list_all w).2.Perm w.tasks
      ∧ (list_all w).2.Pairwise
          (fun a b => (a.done = true → b.done = true) ∧ (a.done = b.done → a.id ≤ b.id))
      ∧ (list_all w).1 = w
      ∧ (∀ rows : List Task, rows.Pairwise (fun a b => task_less b a = false) →
          rows.Pairwise
            (fun a b => (a.done = true → b.done = true) ∧ (a.done = b.done → a.id ≤ b.id))) := by
  refine ⟨?_, ?_, ?_, fun rows hs => hs.imp (fun {a b} hab => task_less_false a b hab)⟩
  · unfold list_all
    by_cases h : w.tasks = []
    · simp [h]
    · rw [if_neg h]
      exact (std_sort_task_less w.tasks).1
  · unfold list_all
    by_cases h : w.tasks = []
    · simp [h]
    · rw [if_neg h]
      exact (std_sort_task_less w.tasks).2.imp (fun {a b} hab => task_less_false a b hab)
  · unfold list_all
    split <;> rfl

/-! ## Titles -/

theorem toggle_first_titles (id : Int) (ts r : List Task) (h : toggle_first id ts = some r) :
    r.map Task.title = ts.map Task.title := by
  induction ts generalizing r with
  | nil => simp [toggle_first] at h
  | cons t ts ih =>
    unfold toggle_first at h
    by_cases hid : t.id = id
    · rw [if_pos hid] at h
      rw [← Option.some.inj h]
      rfl
    · rw [if_neg hid] at h
      cases hr : toggle_first id ts with
      | none => rw [hr] at h; simp at h
      | some r2 =>
        rw [hr] at h
        rw [← Option.some.inj h]
        simp [ih r2 hr]

theorem mark_complete_titles (id : Int) (cw : Bool) (w : World) :
    (mark_complete id cw w).tasks.map Task.title = w.tasks.map Task.title := by
  unfold mark_complete
  cases h : toggle_first id w.tasks with
  | none => rfl
  | some r => simp [save_tasks_tasks, toggle_first_titles id w.tasks r h]

theorem step_titles (w : World) (c : Cmd) (hw : ∀ t ∈ w.tasks, t.title ≠ [])
    (h : titled_file w c = true) : ∀ t ∈ (step w c).tasks, t.title ≠ [] := by
  cases c with
  | add title cat now cw =>
    by_cases ht : title = []
    · subst ht; simpa [step, add_task_empty] using hw
    · intro t hmem
      simp only [step, add_task_tasks _ _ _ _ _ ht] at hmem
      rcases List.mem_append.1 hmem with hmem | hmem
      · exact hw t hmem
      · simp only [List.mem_singleton] at hmem
        subst hmem
        exact ht
  | toggle id cw =>
    intro t hmem
    have hm : t.title ∈ (mark_complete id cw w).tasks.map Task.title :=
      List.mem_map.2 ⟨t, hmem, rfl⟩
    rw [mark_complete_titles] at hm
    obtain ⟨u, hu, e⟩ := List.mem_map.1 hm
    rw [← e]
    exact hw u hu
  | delete id cw =>
    intro t hmem
    simp only [step, delete_task_tasks] at hmem
    exact hw t (List.mem_of_mem_filter hmem)
  | save cw => simpa [step, save_tasks_tasks] using hw
  | load =>
    intro t hmem
    simp only [step, load_tasks_tasks] at hmem
    simp only [titled_file, List.all_eq_true, decide_eq_true_eq] at h
    exact h t hmem
  | set_file f => simpa [step] using hw

theorem run_titles (cmds : List Cmd) (w : World) (hw : ∀ t ∈ w.tasks, t.title ≠ [])
    (h : run_all titled_file w cmds = true) : ∀ t ∈ (run w cmds).tasks, t.title ≠ [] := by
  induction cmds generalizing w with
  | nil => exact hw
  | cons c cs ih =>
    simp only [run_all, Bool.and_eq_true] at h
    exact ih (step w c) (step_titles w c hw h.1) h.2

theorem save_line_title_field (t : Task) :
    (split_csv_line (save_line t))[1]? = some (escape_commas t.title) := by
  rw [split_save_line]
  rfl

/-- C18 (counterexample): from the initial state, a load of the line `1,,c,0,t` gives a
record with an empty title, and the line `save_tasks` writes for it has an empty title
field. -/
theorem load_tasks_empty_title :
    (run (World.init (some ['1', ',', ',', 'c', ',', '0', ',', 't', '\n'])) [Cmd.load]).tasks
        = [Task.mk 1 [] ['c'] false ['t']]
      ∧ (split_csv_line (save_line (Task.mk 1 [] ['c'] false ['t'])))[1]? = some []
      ∧ (run (World.init (some ['1', ',', ',', 'c', ',', '0', ',', 't', '\n']))
          [Cmd.load, Cmd.save true]).file
        = some ['1', ',', ',', 'c', ',', '0', ',', 't', '\n'] := by
  decide

/-- C18 (amended): in every state reached from the initial state by a sequence of adds,
toggles, deletes, saves, loads and outside changes of the file, in which every load reads a
file whose decoded records all have a title that is not empty, no record of the collection
has an empty title, and the title field of the line `save_tasks` writes for each record is
not empty. -/
theorem titles_nonempty_when_loads_titled (file : Option Str) (cmds : List Cmd)
    (h : run_all titled_file (World.init file) cmds = true) :
    (∀ t ∈ (run (World.init file) cmds).tasks, t.title ≠ [])
      ∧ (∀ t ∈ (run (World.init file) cmds).tasks,
          ∃ f, (split_csv_line (save_line t))[1]? = some f ∧ f ≠ []) := by
  have ht := run_titles cmds (World.init file) (by simp [World.init]) h
  refine ⟨ht, fun t hmem => ⟨escape_commas t.title, save_line_title_field t, ?_⟩⟩
  intro he
  have hl : (escape_commas t.title).length = t.title.length := by simp [escape_commas_eq_map]
  rw [he] at hl
  exact ht t hmem (List.length_eq_zero.1 hl.symm)

/-- C18 (witness): a load of a two-record file, an add of the title `,`, a rejected add of
the empty title, a toggle, a delete, a save and a second load. -/
theorem titles_nonempty_when_loads_titled_witness :
    (run (World.init (some ['4', ',', 'a', ',', 'b', ',', '0', ',', 't', '\n',
        '2', ',', 'c', ',', 'd', ',', '1', ',', 't', '\n']))
      [Cmd.load, Cmd.add [','] [] ['t'] true, Cmd.add [] ['w'] ['t'] true, Cmd.toggle 4 true,
        Cmd.delete 2 true, Cmd.save true, Cmd.load]).tasks.all
          (fun t => decide (t.title ≠ [])) = true :=
  List.all_eq_true.2 (fun t ht =>
    decide_eq_true ((titles_nonempty_when_loads_titled _ _ (by decide)).1 t ht))

/-! ## Splitting, field by field -/

theorem split_csv_line_prefixed (l : Str) (cur : Str) :
    ∃ h t, split_csv_line l = h :: t
      ∧ (l.foldl split_step ([], cur)).1 ++ [(l.foldl split_step ([], cur)).2]
          = (cur ++ h) :: t := by
  induction l generalizing cur with
  | nil => exact ⟨[], [], rfl, by simp⟩
  | cons c l ih =>
    obtain ⟨h, t, hs, _⟩ := ih []
    by_cases hc : c = ','
    · subst hc
      refine ⟨[], h :: t, ?_, ?_⟩
      · have := split_csv_line_field [] l (by simp)
        simpa [hs] using this
      · simp only [List.foldl_cons, split_step, if_true]
        rw [foldl_split_step_out]
        have e : (l.foldl split_step ([], [])).1 ++ [(l.foldl split_step ([], [])).2]
            = h :: t := hs
        simp [List.append_assoc, e]
    · obtain ⟨h1, t1, hs1, e1⟩ := ih [c]
      obtain ⟨h2, t2, hs2, e2⟩ := ih (cur ++ [c])
      rw [hs] at hs1 hs2
      obtain ⟨rfl, rfl⟩ := List.cons.inj hs1
      obtain ⟨rfl, rfl⟩ := List.cons.inj hs2
      refine ⟨c :: h, t, ?_, ?_⟩
      · simp only [split_csv_line, List.foldl_cons, split_step, hc, if_false]
        simpa using e1
      · simp only [List.foldl_cons, split_step, hc, if_false]
        simpa using e2

theorem split_csv_line_cons_comma (l : Str) :
    split_csv_line (',' :: l) = [] :: split_csv_line l := by
  simpa using split_csv_line_field [] l (by simp)

theorem split_csv_line_cons_other (c : Char) (l : Str) (hc : c ≠ ',') :
    ∃ h t, split_csv_line l = h :: t ∧ split_csv_line (c :: l) = (c :: h) :: t := by
  obtain ⟨h, t, hs, e⟩ := split_csv_line_prefixed l [c]
  refine ⟨h, t, hs, ?_⟩
  simp only [split_csv_line, List.foldl_cons, split_step, hc, if_false]
  simpa using e

theorem intercalate_cons_cons (sep a b : Str) (l : List Str) :
    sep.intercalate (a :: b :: l) = a ++ sep ++ sep.intercalate (b :: l) := by
  simp [List.intercalate, List.intersperse]

theorem intercalate_push_front (sep : Str) (c : Char) (h : Str) (t : List Str) :
    sep.intercalate ((c :: h) :: t) = c :: sep.intercalate (h :: t) := by
  cases t with
  | nil => simp [List.intercalate, List.intersperse]
  | cons b t => rw [intercalate_cons_cons, intercalate_cons_cons]; simp

theorem split_csv_line_props (l : Str) :
    (split_csv_line l).length = l.count ',' + 1
      ∧ (∀ f ∈ split_csv_line l, ',' ∉ f)
      ∧ [','].intercalate (split_csv_line l) = l := by
  induction l with
  | nil => simp [split_csv_line, List.intercalate, List.intersperse]
  | cons c l ih =>
    obtain ⟨h1, h2, h3⟩ := ih
    by_cases hc : c = ','
    · subst hc
      rw [split_csv_line_cons_comma]
      refine ⟨by simp [h1], ?_, ?_⟩
      · intro f hf
        rcases List.mem_cons.1 hf with rfl | hf
        · simp
        · exact h2 f hf
      · obtain ⟨h, t, hs⟩ := List.exists_cons_of_ne_nil (split_csv_line_ne_nil l)
        rw [hs, intercalate_cons_cons, ← hs, h3]
        simp
    · obtain ⟨h, t, hs, e⟩ := split_csv_line_cons_other c l hc
      rw [e]
      rw [hs] at h1 h2 h3
      refine ⟨?_, ?_, ?_⟩
      · have : List.count ',' (c :: l) = List.count ',' l := by
          simp [List.count_cons, hc]
        rw [this]
        simpa using h1
      · intro f hf
        rcases List.mem_cons.1 hf with rfl | hf
        · intro hm
          rcases List.mem_cons.1 hm with hm | hm
          · exact hc hm.symm
          · exact h2 h (by simp) hm
        · exact h2 f (by simp [hf])
      · rw [intercalate_push_front, h3]

/-- C19: for every line, `split_csv_line` returns a list that is not empty, with one field
more than the line has commas, with no comma in any field, and whose comma-join is the line
itself; a line ending in a comma gets a last field that is empty, and the empty line gives
one empty field. -/
theorem split_csv_line_preserves_fields (line : Str) :
    split_csv_line line ≠ []
      ∧ (split_csv_line line).length = line.count ',' + 1
      ∧ (∀ f ∈ split_csv_line line, ',' ∉ f)
      ∧ [','].intercalate (split_csv_line line) = line
      ∧ (split_csv_line (line ++ [','])).getLast? = some []
      ∧ split_csv_line [] = [[]] := by
  obtain ⟨h1, h2, h3⟩ := split_csv_line_props line
  refine ⟨split_csv_line_ne_nil line, h1, h2, h3, ?_, rfl⟩
  simp [split_csv_line, List.foldl_append, split_step]

/-! ## Saved lines are never dropped -/

/-- C20: for every record with an `int` id and no newline in its title, category and
`created_at`, the line `save_tasks` writes splits into at least five fields, field 0 parses
back to the id, and the decoder of `load_tasks` returns a record with the same id and
`done` flag, the escaped title and the escaped category; the text written for the record is
read back as that one line, so a load of it gives exactly this record. -/
theorem save_line_never_dropped (t : Task) (hid : in_int_range t.id)
    (hn : '\n' ∉ t.title ∧ '\n' ∉ t.category ∧ '\n' ∉ t.created_at) :
    5 ≤ (split_csv_line (save_line t)).length
      ∧ (∃ f0, (split_csv_line (save_line t))[0]? = some f0 ∧ stoi f0 = some t.id)
      ∧ (∃ r, parse_line (save_line t) = some r ∧ r.id = t.id ∧ r.done = t.done
          ∧ r.title = escape_commas t.title ∧ r.category = escape_commas t.category
          ∧ file_records (some (save_text [t])) = [r])
      ∧ read_lines (save_text [t]) [] = [save_line t] := by
  have hp := parse_save_line t hid.1 hid.2
  have hr : read_lines (save_text [t]) [] = [save_line t] := by
    simpa using read_lines_save_text [t] (by simpa using hn.2.2)
  refine ⟨?_, ⟨int_to_string t.id, ?_, stoi_int_to_string t.id hid.1 hid.2⟩,
    ⟨_, hp, rfl, rfl, rfl, rfl, ?_⟩, hr⟩
  · obtain ⟨f, fs, hf⟩ := List.exists_cons_of_ne_nil (split_csv_line_ne_nil t.created_at)
    rw [split_save_line, hf]
    simp
  · rw [split_save_line]
    rfl
  · simp [file_records, hr, hp]

/-- C20 (witness): the record `-12, "a,b", "", done, "x,y"` is written as `-12,a;b,,1,x,y`
and decoded with the title `a;b`. -/
theorem save_line_never_dropped_witness :
    save_line (Task.mk (-12) ['a', ',', 'b'] [] true ['x', ',', 'y'])
        = ['-', '1', '2', ',', 'a', ';', 'b', ',', ',', '1', ',', 'x', ',', 'y']
      ∧ parse_line (save_line (Task.mk (-12) ['a', ',', 'b'] [] true ['x', ',', 'y']))
        = some (Task.mk (-12) ['a', ';', 'b'] [] true ['x'])
      ∧ 5 ≤ (split_csv_line
          (save_line (Task.mk (-12) ['a', ',', 'b'] [] true ['x', ',', 'y']))).length :=
  ⟨by decide, by decide,
    (save_line_never_dropped (Task.mk (-12) ['a', ',', 'b'] [] true ['x', ',', 'y'])
      (by decide) (by decide)).1⟩

end Todolist
